import Mathlib

/-!
Verification development for the ida-chat repository.

Shallow embedding of the two core modules:
  * `ida_chat_core.py`   — script-block extraction (`IDASCRIPT_PATTERN`), the
    default script executor (`_default_execute_script`), the per-response
    processing (`_process_single_response`) and the agentic turn loop
    (`process_message`);
  * `ida_chat_history.py` — the append-only JSONL session log
    (`MessageHistory`).

Strings are modelled by Lean `String` / `List Char`; Python's `re` matching of
the pattern `<idascript>(.*?)</idascript>` (DOTALL) is embedded as an explicit
leftmost / shortest-match scanner; file I/O is modelled as an in-memory list of
lines; `uuid.uuid4()` and `datetime.now()` are modelled as fresh-supply
counters (the code never relies on their actual values, only on freshness).
-/

/-! ### Python `str.strip()` on ASCII whitespace (used by the core and extractor) -/

/-- The whitespace characters stripped by Python's `str.strip()` (ASCII part). -/
def isPyWS (c : Char) : Bool :=
  c = ' ' ∨ c = '\t' ∨ c = '\n' ∨ c = '\x0d' ∨ c = '\x0b' ∨ c = '\x0c'

/-- Python `str.strip()`: remove leading and trailing whitespace. -/
def pyStripL (l : List Char) : List Char :=
  ((l.dropWhile isPyWS).reverse.dropWhile isPyWS).reverse

/-- Python `str.strip()` lifted to `String`. -/
def pyStrip (s : String) : String :=
  String.mk (pyStripL s.data)

/-! ### The `<idascript>` block extractor (`IDASCRIPT_PATTERN`, ida_chat_core.py:44)

`IDASCRIPT_PATTERN = re.compile(r"<idascript>(.*?)</idascript>", re.DOTALL)`.
`findall` repeatedly finds the leftmost occurrence of the open tag, then the
nearest following close tag (non-greedy body), captures the body, and resumes
after the close tag; `sub("", text)` removes exactly the matched spans.  The
scanner below implements exactly that discipline. -/

/-- The fixed open delimiter of a script block. -/
def openTag : List Char := "<idascript>".data

/-- The fixed close delimiter of a script block. -/
def closeTag : List Char := "</idascript>".data

/-- First-occurrence split: `findSplit pat xs = some (b, a)` iff `pat` occurs in
`xs` and `xs = b ++ pat ++ a` with `b` shortest; `none` iff `pat` does not occur
(for the nonempty patterns used here). -/
def findSplit (pat : List Char) : List Char → Option (List Char × List Char)
  | [] => none
  | c :: cs =>
    if pat.isPrefixOf (c :: cs) then some ([], (c :: cs).drop pat.length)
    else
      match findSplit pat cs with
      | some (b, a) => some (c :: b, a)
      | none => none

/-- Fuel-indexed scanner computing `IDASCRIPT_PATTERN.findall`: the bodies of
all matches, left to right, non-greedy, non-overlapping. -/
def extractAuxF (p q : List Char) : Nat → List Char → List (List Char)
  | 0, _ => []
  | fuel + 1, xs =>
    match findSplit p xs with
    | none => []
    | some (_, afterOpen) =>
      match findSplit q afterOpen with
      | none => []
      | some (body, rest) => body :: extractAuxF p q fuel rest

/-- Fuel-indexed scanner computing `IDASCRIPT_PATTERN.sub("", ·)`: the input
with every matched span deleted. -/
def removeAuxF (p q : List Char) : Nat → List Char → List Char
  | 0, xs => xs
  | fuel + 1, xs =>
    match findSplit p xs with
    | none => xs
    | some (before, afterOpen) =>
      match findSplit q afterOpen with
      | none => xs
      | some (_, rest) => before ++ removeAuxF p q fuel rest

/-- `IDASCRIPT_PATTERN.findall` on a character list (fuel = length suffices). -/
def extractL (xs : List Char) : List (List Char) :=
  extractAuxF openTag closeTag xs.length xs

/-- `IDASCRIPT_PATTERN.sub("", ·)` on a character list. -/
def removeL (xs : List Char) : List Char :=
  removeAuxF openTag closeTag xs.length xs

/-- `IDASCRIPT_PATTERN.findall(text)` (ida_chat_core.py:324). -/
def extractScripts (s : String) : List String :=
  (extractL s.data).map (fun l => String.mk l)

/-- `IDASCRIPT_PATTERN.sub("", text).strip()` — the display text
(ida_chat_core.py:309). -/
def displayText (s : String) : String :=
  pyStrip (String.mk (removeL s.data))

/-! ### Lemmas about the scanner -/

/-- Correctness of `findSplit`: a successful split reassembles the input. -/
theorem findSplit_eq_append {pat : List Char} :
    ∀ {xs b a : List Char}, findSplit pat xs = some (b, a) → xs = b ++ pat ++ a := by
  intro xs
  induction xs with
  | nil => intro b a h; simp [findSplit] at h
  | cons c cs ih =>
    intro b a h
    rw [findSplit] at h
    by_cases hp : pat.isPrefixOf (c :: cs) = true
    · rw [if_pos hp] at h
      obtain ⟨t, ht⟩ := List.isPrefixOf_iff_prefix.mp hp
      cases h
      have hdrop : (c :: cs).drop pat.length = t := by
        rw [← ht]; exact List.drop_left pat t
      rw [hdrop, List.nil_append, ht]
    · rw [if_neg hp] at h
      cases hfs : findSplit pat cs with
      | none => rw [hfs] at h; exact absurd h (by simp)
      | some ba =>
        obtain ⟨b1, a1⟩ := ba
        rw [hfs] at h
        cases h
        have := ih hfs
        simp [this]

/-- Unfolding `findSplit` when it fails on a cons cell. -/
theorem findSplit_none_cons {pat : List Char} {c : Char} {cs : List Char}
    (h : findSplit pat (c :: cs) = none) :
    pat.isPrefixOf (c :: cs) = false ∧ findSplit pat cs = none := by
  rw [findSplit] at h
  by_cases hp : pat.isPrefixOf (c :: cs) = true
  · rw [if_pos hp] at h; exact absurd h (by simp)
  · rw [if_neg hp] at h
    refine ⟨Bool.eq_false_iff.mpr hp, ?_⟩
    cases hfs : findSplit pat cs with
    | none => rfl
    | some ba => rw [hfs] at h; exact absurd h (by cases ba; simp)

/-- A pattern is self-overlap free: no proper nonempty suffix-shift of it is
again a prefix of it.  Both delimiter tags satisfy this ('<' occurs only at
position 0), which makes first-occurrence search compositional. -/
def NoOverlap (pat : List Char) : Prop :=
  ∀ d, d < pat.length → 0 < d → (pat.drop d).isPrefixOf pat = false

/-- Executable check for `NoOverlap`. -/
def noOverlapB (pat : List Char) : Bool :=
  (List.range pat.length).all fun d => decide (d = 0) || !(pat.drop d).isPrefixOf pat

theorem noOverlap_of_B {pat : List Char} (h : noOverlapB pat = true) : NoOverlap pat := by
  intro d hd hpos
  have hx := List.all_eq_true.mp h d (List.mem_range.mpr hd)
  rcases Bool.or_eq_true_iff.mp hx with h0 | hn
  · exact absurd (of_decide_eq_true h0) (Nat.pos_iff_ne_zero.mp hpos)
  · simpa using hn

theorem noOverlap_openTag : NoOverlap openTag :=
  noOverlap_of_B (by decide)

theorem noOverlap_closeTag : NoOverlap closeTag :=
  noOverlap_of_B (by decide)

/-- First-occurrence search finds the seam: if `pat` does not occur in `lit`
and has no self overlap, its first occurrence in `lit ++ pat ++ tail` is
exactly at the seam. -/
theorem findSplit_boundary {pat : List Char} (hne : pat ≠ []) (hno : NoOverlap pat) :
    ∀ {lit : List Char} (tail : List Char), findSplit pat lit = none →
      findSplit pat (lit ++ pat ++ tail) = some (lit, tail) := by
  intro lit
  induction lit with
  | nil =>
    intro tail _
    obtain ⟨c, cs, hpat⟩ : ∃ c cs, pat = c :: cs := by
      cases hp : pat with
      | nil => exact absurd hp hne
      | cons c cs => exact ⟨c, cs, rfl⟩
    subst hpat
    have hpre : (c :: cs).isPrefixOf ((c :: cs) ++ tail) = true :=
      List.isPrefixOf_iff_prefix.mpr (List.prefix_append _ _)
    have hdrop : ((c :: cs) ++ tail).drop (c :: cs).length = tail := List.drop_left _ _
    simp only [List.nil_append]
    rw [List.cons_append, findSplit]
    rw [← List.cons_append, if_pos hpre, hdrop]
  | cons c lit' ih =>
    intro tail hnone
    obtain ⟨hp1, hp2⟩ := findSplit_none_cons hnone
    have hkey : pat.isPrefixOf (c :: (lit' ++ pat ++ tail)) = false := by
      by_contra hcon
      have hpre : pat.isPrefixOf (c :: (lit' ++ pat ++ tail)) = true := by
        cases hb : pat.isPrefixOf (c :: (lit' ++ pat ++ tail)) with
        | true => rfl
        | false => exact absurd hb hcon
      obtain ⟨t, ht0⟩ := List.isPrefixOf_iff_prefix.mp hpre
      have ht : pat ++ t = (c :: lit') ++ (pat ++ tail) := by simpa using ht0
      rcases le_or_lt pat.length (c :: lit').length with hle | hlt
      · have hpl : pat = (c :: lit').take pat.length := by
          calc pat = (pat ++ t).take pat.length := (List.take_left _ _).symm
          _ = ((c :: lit') ++ (pat ++ tail)).take pat.length := by rw [ht]
          _ = (c :: lit').take pat.length := List.take_append_of_le_length hle
        have : pat.isPrefixOf (c :: lit') = true :=
          List.isPrefixOf_iff_prefix.mpr (hpl ▸ List.take_prefix _ _)
        rw [hp1] at this
        exact absurd this (by simp)
      · have h1 : pat.drop (c :: lit').length ++ t = pat ++ tail := by
          have hcg := congrArg (List.drop (c :: lit').length) ht
          rwa [ List.drop_append_of_le_length (Nat.le_of_lt hlt), List.drop_left] at hcg
        have hlen : (pat.drop (c :: lit').length).length = pat.length - (c :: lit').length :=
          List.length_drop _ _
        have h2 : pat.drop (c :: lit').length = pat.take (pat.length - (c :: lit').length) := by
          calc pat.drop (c :: lit').length
              = (pat.drop (c :: lit').length ++ t).take (pat.drop (c :: lit').length).length :=
                (List.take_left _ _).symm
          _ = (pat ++ tail).take (pat.drop (c :: lit').length).length := by rw [h1]
          _ = (pat ++ tail).take (pat.length - (c :: lit').length) := by rw [hlen]
          _ = pat.take (pat.length - (c :: lit').length) :=
                List.take_append_of_le_length (Nat.sub_le _ _)
        have hpre2 : (pat.drop (c :: lit').length).isPrefixOf pat = true :=
          List.isPrefixOf_iff_prefix.mpr (h2 ▸ List.take_prefix _ _)
        have := hno (c :: lit').length hlt (by simp)
        rw [this] at hpre2
        exact absurd hpre2 (by simp)
    show findSplit pat (c :: (lit' ++ pat ++ tail)) = some (c :: lit', tail)
    rw [findSplit, if_neg (fun hcon => by rw [hkey] at hcon; exact absurd hcon (by simp)), ih tail hp2]

/-- Length bookkeeping for a successful split. -/
theorem findSplit_length {pat : List Char} {xs b a : List Char}
    (h : findSplit pat xs = some (b, a)) :
    xs.length = b.length + pat.length + a.length := by
  rw [findSplit_eq_append h]; simp [Nat.add_assoc]

/-- The extractor scanner returns an empty list on empty fuel or no match. -/
theorem extractAuxF_of_none {p q : List Char} {xs : List Char}
    (h : findSplit p xs = none) : ∀ fuel, extractAuxF p q fuel xs = [] := by
  intro fuel
  cases fuel with
  | zero => rfl
  | succ f => rw [extractAuxF, h]

/-- The removal scanner is the identity when there is no match. -/
theorem removeAuxF_of_none {p q : List Char} {xs : List Char}
    (h : findSplit p xs = none) : ∀ fuel, removeAuxF p q fuel xs = xs := by
  intro fuel
  cases fuel with
  | zero => rfl
  | succ f => rw [removeAuxF, h]

/-- Any fuel at least the input length yields the same extraction result. -/
theorem extractAuxF_fuel {p q : List Char} (hp : p ≠ []) (hq : q ≠ []) :
    ∀ (n : Nat) (xs : List Char), xs.length ≤ n →
      ∀ f₁ f₂, xs.length ≤ f₁ → xs.length ≤ f₂ →
        extractAuxF p q f₁ xs = extractAuxF p q f₂ xs := by
  intro n
  induction n with
  | zero =>
    intro xs hxs f₁ f₂ _ _
    have : xs = [] := List.eq_nil_of_length_eq_zero (Nat.le_zero.mp hxs)
    subst this
    cases f₁ with
    | zero => cases f₂ with
      | zero => rfl
      | succ g₂ => simp only [extractAuxF, findSplit]
    | succ g₁ => cases f₂ with
      | zero => simp only [extractAuxF, findSplit]
      | succ g₂ => simp only [extractAuxF, findSplit]
  | succ n ih =>
    intro xs hxs f₁ f₂ h₁ h₂
    cases hfs : findSplit p xs with
    | none => rw [extractAuxF_of_none hfs, extractAuxF_of_none hfs]
    | some ba =>
      obtain ⟨b, a⟩ := ba
      have hxs_pos : 0 < xs.length := by
        rcases xs with _ | ⟨c, cs⟩
        · rw [findSplit] at hfs; exact absurd hfs (by simp)
        · simp
      obtain ⟨g₁, rfl⟩ : ∃ g, f₁ = g + 1 :=
        ⟨f₁ - 1, (Nat.succ_pred_eq_of_pos (Nat.lt_of_lt_of_le hxs_pos h₁)).symm⟩
      obtain ⟨g₂, rfl⟩ : ∃ g, f₂ = g + 1 :=
        ⟨f₂ - 1, (Nat.succ_pred_eq_of_pos (Nat.lt_of_lt_of_le hxs_pos h₂)).symm⟩
      cases hfq : findSplit q a with
      | none => simp only [extractAuxF, hfs, hfq]
      | some br =>
        obtain ⟨body, rest⟩ := br
        have hlen1 := findSplit_length hfs
        have hlen2 := findSplit_length hfq
        have hplen : 0 < p.length := List.length_pos.mpr hp
        have hqlen : 0 < q.length := List.length_pos.mpr hq
        have hrest : rest.length + 1 ≤ xs.length := by omega
        have hr_n : rest.length ≤ n := by omega
        have hr_g₁ : rest.length ≤ g₁ := by omega
        have hr_g₂ : rest.length ≤ g₂ := by omega
        simp only [extractAuxF, hfs, hfq]
        rw [ih rest hr_n g₁ g₂ hr_g₁ hr_g₂]

/-- Any fuel at least the input length yields the same removal result. -/
theorem removeAuxF_fuel {p q : List Char} (hp : p ≠ []) (hq : q ≠ []) :
    ∀ (n : Nat) (xs : List Char), xs.length ≤ n →
      ∀ f₁ f₂, xs.length ≤ f₁ → xs.length ≤ f₂ →
        removeAuxF p q f₁ xs = removeAuxF p q f₂ xs := by
  intro n
  induction n with
  | zero =>
    intro xs hxs f₁ f₂ _ _
    have : xs = [] := List.eq_nil_of_length_eq_zero (Nat.le_zero.mp hxs)
    subst this
    cases f₁ with
    | zero => cases f₂ with
      | zero => rfl
      | succ g₂ => simp only [removeAuxF, findSplit]
    | succ g₁ => cases f₂ with
      | zero => simp only [removeAuxF, findSplit]
      | succ g₂ => simp only [removeAuxF, findSplit]
  | succ n ih =>
    intro xs hxs f₁ f₂ h₁ h₂
    cases hfs : findSplit p xs with
    | none => rw [removeAuxF_of_none hfs, removeAuxF_of_none hfs]
    | some ba =>
      obtain ⟨b, a⟩ := ba
      have hxs_pos : 0 < xs.length := by
        rcases xs with _ | ⟨c, cs⟩
        · rw [findSplit] at hfs; exact absurd hfs (by simp)
        · simp
      obtain ⟨g₁, rfl⟩ : ∃ g, f₁ = g + 1 :=
        ⟨f₁ - 1, (Nat.succ_pred_eq_of_pos (Nat.lt_of_lt_of_le hxs_pos h₁)).symm⟩
      obtain ⟨g₂, rfl⟩ : ∃ g, f₂ = g + 1 :=
        ⟨f₂ - 1, (Nat.succ_pred_eq_of_pos (Nat.lt_of_lt_of_le hxs_pos h₂)).symm⟩
      cases hfq : findSplit q a with
      | none => simp only [removeAuxF, hfs, hfq]
      | some br =>
        obtain ⟨body, rest⟩ := br
        have hlen1 := findSplit_length hfs
        have hlen2 := findSplit_length hfq
        have hplen : 0 < p.length := List.length_pos.mpr hp
        have hqlen : 0 < q.length := List.length_pos.mpr hq
        have hr_n : rest.length ≤ n := by omega
        have hr_g₁ : rest.length ≤ g₁ := by omega
        have hr_g₂ : rest.length ≤ g₂ := by omega
        simp only [removeAuxF, hfs, hfq]
        rw [ih rest hr_n g₁ g₂ hr_g₁ hr_g₂]

theorem openTag_ne_nil : openTag ≠ [] := by decide

theorem closeTag_ne_nil : closeTag ≠ [] := by decide

/-- One scanning step of `findall` on a well-formed block at the front. -/
theorem extractL_step {lit frag : List Char} (rest : List Char)
    (hlit : findSplit openTag lit = none) (hfrag : findSplit closeTag frag = none) :
    extractL (lit ++ (openTag ++ (frag ++ (closeTag ++ rest)))) = frag :: extractL rest := by
  have h1 : findSplit openTag (lit ++ (openTag ++ (frag ++ (closeTag ++ rest)))) =
      some (lit, frag ++ (closeTag ++ rest)) := by
    have hb := findSplit_boundary openTag_ne_nil noOverlap_openTag
      (frag ++ (closeTag ++ rest)) hlit
    rwa [ List.append_assoc] at hb
  have h2 : findSplit closeTag (frag ++ (closeTag ++ rest)) = some (frag, rest) := by
    have hb := findSplit_boundary closeTag_ne_nil noOverlap_closeTag rest hfrag
    rwa [ List.append_assoc] at hb
  have hlen : (lit ++ (openTag ++ (frag ++ (closeTag ++ rest)))).length =
      lit.length + (openTag.length + (frag.length + (closeTag.length + rest.length))) := by
    simp
  have ho : openTag.length = 11 := by decide
  have hc : closeTag.length = 12 := by decide
  have hpos : 0 < (lit ++ (openTag ++ (frag ++ (closeTag ++ rest)))).length := by omega
  obtain ⟨g, hg⟩ : ∃ g, (lit ++ (openTag ++ (frag ++ (closeTag ++ rest)))).length = g + 1 :=
    ⟨(lit ++ (openTag ++ (frag ++ (closeTag ++ rest)))).length - 1,
      (Nat.succ_pred_eq_of_pos hpos).symm⟩
  have hrest_g : rest.length ≤ g := by omega
  rw [extractL, hg]
  simp only [extractAuxF, h1, h2]
  rw [extractL,
    extractAuxF_fuel openTag_ne_nil closeTag_ne_nil g rest hrest_g g rest.length hrest_g
      (Nat.le_refl _)]

/-- One scanning step of `sub` on a well-formed block at the front. -/
theorem removeL_step {lit frag : List Char} (rest : List Char)
    (hlit : findSplit openTag lit = none) (hfrag : findSplit closeTag frag = none) :
    removeL (lit ++ (openTag ++ (frag ++ (closeTag ++ rest)))) = lit ++ removeL rest := by
  have h1 : findSplit openTag (lit ++ (openTag ++ (frag ++ (closeTag ++ rest)))) =
      some (lit, frag ++ (closeTag ++ rest)) := by
    have hb := findSplit_boundary openTag_ne_nil noOverlap_openTag
      (frag ++ (closeTag ++ rest)) hlit
    rwa [ List.append_assoc] at hb
  have h2 : findSplit closeTag (frag ++ (closeTag ++ rest)) = some (frag, rest) := by
    have hb := findSplit_boundary closeTag_ne_nil noOverlap_closeTag rest hfrag
    rwa [ List.append_assoc] at hb
  have hlen : (lit ++ (openTag ++ (frag ++ (closeTag ++ rest)))).length =
      lit.length + (openTag.length + (frag.length + (closeTag.length + rest.length))) := by
    simp
  have ho : openTag.length = 11 := by decide
  have hc : closeTag.length = 12 := by decide
  have hpos : 0 < (lit ++ (openTag ++ (frag ++ (closeTag ++ rest)))).length := by omega
  obtain ⟨g, hg⟩ : ∃ g, (lit ++ (openTag ++ (frag ++ (closeTag ++ rest)))).length = g + 1 :=
    ⟨(lit ++ (openTag ++ (frag ++ (closeTag ++ rest)))).length - 1,
      (Nat.succ_pred_eq_of_pos hpos).symm⟩
  have hrest_g : rest.length ≤ g := by omega
  rw [removeL, hg]
  simp only [removeAuxF, h1, h2]
  rw [removeL,
    removeAuxF_fuel openTag_ne_nil closeTag_ne_nil g rest hrest_g g rest.length hrest_g
      (Nat.le_refl _)]

/-- On a text without any open tag, extraction finds nothing. -/
theorem extractL_of_no_open {xs : List Char} (h : findSplit openTag xs = none) :
    extractL xs = [] :=
  extractAuxF_of_none h _

/-- On a text without any open tag, removal is the identity. -/
theorem removeL_of_no_open {xs : List Char} (h : findSplit openTag xs = none) :
    removeL xs = xs :=
  removeAuxF_of_none h _

/-- Well-formed shape of a response text: literal text alternating with
delimited fragments, then a trailing literal.  Literals contain no open tag
and fragments contain no close tag. -/
def renderL : List (List Char × List Char) → List Char → List Char
  | [], last => last
  | (lit, frag) :: ps, last => lit ++ (openTag ++ (frag ++ (closeTag ++ renderL ps last)))

/-- The concatenation of the literal (non-fragment) parts of a shape. -/
def litsConcat : List (List Char × List Char) → List Char → List Char
  | [], last => last
  | (lit, _) :: ps, last => lit ++ litsConcat ps last

/-- Extraction and removal on any well-formed rendered text. -/
theorem extract_remove_render :
    ∀ (pieces : List (List Char × List Char)) (last : List Char),
      (∀ pc ∈ pieces, findSplit openTag pc.1 = none ∧ findSplit closeTag pc.2 = none) →
      findSplit openTag last = none →
      extractL (renderL pieces last) = pieces.map Prod.snd ∧
        removeL (renderL pieces last) = litsConcat pieces last := by
  intro pieces
  induction pieces with
  | nil =>
    intro last _ hlast
    exact ⟨extractL_of_no_open hlast, removeL_of_no_open hlast⟩
  | cons pc ps ih =>
    intro last hwf hlast
    obtain ⟨lit, frag⟩ := pc
    have hpc := hwf (lit, frag) (List.mem_cons_self _ _)
    have hps : ∀ pc ∈ ps, findSplit openTag pc.1 = none ∧ findSplit closeTag pc.2 = none :=
      fun pc hm => hwf pc (List.mem_cons_of_mem _ hm)
    obtain ⟨hex, hrm⟩ := ih last hps hlast
    constructor
    · rw [renderL, extractL_step (renderL ps last) hpc.1 hpc.2, hex]
      rfl
    · rw [renderL, removeL_step (renderL ps last) hpc.1 hpc.2, hrm]
      rfl

/-- If the first open tag has no following close tag, the scan returns nothing
(and leaves the text intact), exactly as Python finds no match. -/
theorem extract_remove_of_no_close {xs b a : List Char}
    (hfs : findSplit openTag xs = some (b, a)) (hfq : findSplit closeTag a = none) :
    extractL xs = [] ∧ removeL xs = xs := by
  have hpos : 0 < xs.length := by
    rcases xs with _ | ⟨c, cs⟩
    · rw [findSplit] at hfs; exact absurd hfs (by simp)
    · simp
  obtain ⟨g, hg⟩ : ∃ g, xs.length = g + 1 :=
    ⟨xs.length - 1, (Nat.succ_pred_eq_of_pos hpos).symm⟩
  constructor
  · rw [extractL, hg]
    simp only [extractAuxF, hfs, hfq]
  · rw [removeL, hg]
    simp only [removeAuxF, hfs, hfq]

/-- A text containing no well-formed delimiter pair yields no fragment, and its
display text is just the trimmed original. -/
theorem extract_remove_no_pair (s : String)
    (h : ¬ ∃ b m a : List Char, s.data = b ++ openTag ++ m ++ closeTag ++ a) :
    extractScripts s = [] ∧ displayText s = pyStrip s := by
  cases hfs : findSplit openTag s.data with
  | none =>
    constructor
    · rw [extractScripts, extractL_of_no_open hfs]; rfl
    · rw [displayText, removeL_of_no_open hfs]
  | some ba =>
    obtain ⟨b, afterOpen⟩ := ba
    cases hfq : findSplit closeTag afterOpen with
    | none =>
      obtain ⟨hex, hrm⟩ := extract_remove_of_no_close hfs hfq
      constructor
      · rw [extractScripts, hex]; rfl
      · rw [displayText, hrm]
    | some ma =>
      obtain ⟨m, a⟩ := ma
      exact absurd ⟨b, m, a, by
        rw [findSplit_eq_append hfs, findSplit_eq_append hfq]
        simp [List.append_assoc]⟩ h

/-! ### The default script executor (`_default_execute_script`, ida_chat_core.py:232-250)

```python
old_stdout = sys.stdout
sys.stdout = captured = StringIO()
try:
    exec(code, {"db": self.db, "print": print})
    return captured.getvalue()
except Exception as e:
    return f"Script error: {e}"
finally:
    sys.stdout = old_stdout
```

The executed code is modelled by its observable behaviour: the text it writes
to the current `sys.stdout` and whether it returns normally or raises (with
`str(e)` as the message).  `sys.stdout` is modelled as a write target that
accumulates text. -/

/-- A write target standing for `sys.stdout`: either the real console stream
or a `StringIO` capture buffer, each accumulating what was written to it. -/
inductive Stdout
  | real (written : String)
  | captured (buf : String)
  deriving DecidableEq

/-- Writing text to the current target (what `print` does). -/
def writeOut (st : Stdout) (txt : String) : Stdout :=
  match st with
  | .real w => .real (w ++ txt)
  | .captured b => .captured (b ++ txt)

/-- `StringIO.getvalue()` on a capture target. -/
def getvalue : Stdout → String
  | .real w => w
  | .captured b => b

/-- Observable behaviour of `exec(code, {"db": db, "print": print})`: the text
the script prints and its outcome (`ok` or an exception with message `str(e)`). -/
structure ScriptRun where
  printed : String
  outcome : Except String Unit

/-- Running `exec`: writes the script's output to the current stdout target and
produces the script's outcome. -/
def execPy (run : ScriptRun) (cur : Stdout) : Except String Unit × Stdout :=
  (run.outcome, writeOut cur run.printed)

/-- `IDAChatCore._default_execute_script`: redirect `sys.stdout` to a fresh
capture buffer, run the code, return the captured output on success or the
`"Script error: <message>"` string on exception, and restore `sys.stdout` in
both cases (the `finally` block).  Returns the result string and the value of
`sys.stdout` after the call. -/
def defaultExecuteScript (run : ScriptRun) (stdout0 : Stdout) : String × Stdout :=
  let oldStdout := stdout0
  match execPy run (Stdout.captured "") with
  | (Except.ok _, cap) => (getvalue cap, oldStdout)
  | (Except.error e, _) => ("Script error: " ++ e, oldStdout)

/-! ### The agentic turn loop (`process_message`, ida_chat_core.py:352-424)

The agent transport is modelled as a function from the (1-based) turn number to
`Except String String`: `Except.ok response` is the concatenated text of the
streamed response for that turn, `Except.error e` models `client.query` /
`receive_response` raising.  The injected script executor is a total
`String → String` (the default executor's contract).  The cooperative
cancellation flag is modelled by its value at each loop-boundary check: the
code reads `self._cancelled` only at the top of each `while` iteration, so the
oracle is indexed by the number of completed turns. -/

/-- Sink notifications (`ChatCallback`), ida_chat_core.py:116-157. -/
inductive Event
  | turnStart (turn maxTurns : Nat)
  | thinking
  | thinkingDone
  | text (s : String)
  | scriptCode (code : String)
  | scriptOutput (out : String)
  | error (msg : String)
  deriving DecidableEq

/-- Result of `_process_single_response` (ida_chat_core.py:252-350): the
scripts found in the response, their execution outputs (in order), and the
sink events emitted while streaming.  The response is modelled as one
assistant text block followed by the terminal result message. -/
structure SingleResp where
  scripts : List String
  outputs : List String
  events : List Event

/-- `_process_single_response`: clean the text for display, extract all
`<idascript>` fragments, strip and execute each, and emit the corresponding
sink events (`on_thinking_done`, `on_text` if non-empty, `on_script_code`
before each run, `on_script_output` only for non-empty output). -/
def processSingleResponse (ex : String → String) (resp : String) : SingleResp :=
  let scripts := extractScripts resp
  let cleaned := displayText resp
  let textEvents := if cleaned = "" then [] else [Event.text cleaned]
  let runs := scripts.map (fun sc => (pyStrip sc, ex (pyStrip sc)))
  let scriptEvents := (runs.map (fun r =>
    Event.scriptCode r.1 :: (if r.2 = "" then [] else [Event.scriptOutput r.2]))).flatten
  ⟨scripts, runs.map Prod.snd, Event.thinkingDone :: (textEvents ++ scriptEvents)⟩

/-- The per-output labels of ida_chat_core.py:408-413: each output is labeled
`"Script N output:"` only when more than one script was found. -/
def labelOutputs (nScripts : Nat) (outputs : List String) : List String :=
  outputs.enum.map (fun io =>
    if 1 < nScripts then "Script " ++ Nat.repr (io.1 + 1) ++ " output:\n" ++ io.2 else io.2)

/-- Construction of the next turn's input from this turn's script results
(ida_chat_core.py:405-418): if any output was recorded, the formatted outputs
are joined with blank lines under a `"Script output:"` header; otherwise the
fixed no-output sentinel is used. -/
def nextInput (scriptsFound outputs : List String) : String :=
  if outputs.isEmpty then "Script executed successfully with no output."
  else "Script output:\n\n" ++ String.intercalate "\n\n" (labelOutputs scriptsFound.length outputs)

/-- Observable result of the `while` loop of `process_message`: final value of
`turn`, sink events, inputs sent via `client.query` (in order), all recorded
script outputs, and the exception that escaped the loop, if any. -/
structure LoopOut where
  turnsEnd : Nat
  events : List Event
  requests : List String
  outputs : List String
  exn : Option String

/-- The `while turn < max_turns` loop of `process_message`
(ida_chat_core.py:381-418), with `fuel = max_turns - turn` and `turn` the
number of completed turns.  Each iteration: check the cancellation flag;
increment `turn`; notify `on_turn_start` and `on_thinking`; send the input;
stream and process the response (executing its scripts); stop if no script was
found, else feed the formatted outputs back as the next input. -/
def loopAux (agent : Nat → Except String String) (ex : String → String)
    (cancel : Nat → Bool) (maxTurns : Nat) : Nat → Nat → String → LoopOut
  | 0, turn, _ => ⟨turn, [], [], [], none⟩
  | fuel + 1, turn, input =>
    if cancel turn then
      ⟨turn, [Event.error "Operation cancelled"], [], [], none⟩
    else
      match agent (turn + 1) with
      | Except.error e =>
        ⟨turn + 1, [Event.turnStart (turn + 1) maxTurns, Event.thinking], [input], [], some e⟩
      | Except.ok resp =>
        let pr := processSingleResponse ex resp
        if pr.scripts.isEmpty then
          ⟨turn + 1, Event.turnStart (turn + 1) maxTurns :: Event.thinking :: pr.events,
            [input], pr.outputs, none⟩
        else
          let rest := loopAux agent ex cancel maxTurns fuel (turn + 1)
            (nextInput pr.scripts pr.outputs)
          ⟨rest.turnsEnd,
            (Event.turnStart (turn + 1) maxTurns :: Event.thinking :: pr.events) ++ rest.events,
            input :: rest.requests, pr.outputs ++ rest.outputs, rest.exn⟩

/-- Everything `process_message` makes observable besides its return value. -/
structure PMTrace where
  events : List Event
  requests : List String
  userWrites : List String
  outputs : List String
  turns : Nat

/-- How a call to `process_message` ends: with an exception escaping to the
caller (`raised`) or with a normal return value (`returned`). -/
inductive Outcome
  | raised (msg : String)
  | returned (v : String)
  deriving DecidableEq

/-- A completed call to `process_message`: its trace and its outcome. -/
structure PMResult where
  trace : PMTrace
  outcome : Outcome

/-- The message of the `RuntimeError` raised when not connected
(ida_chat_core.py:367). -/
def notConnectedMsg : String := "Client not connected. Call connect() first."

/-- The `on_error` message for protocol exhaustion (ida_chat_core.py:422). -/
def maxTurnsMsg (maxTurns : Nat) : String :=
  "Reached maximum turns (" ++ Nat.repr maxTurns ++ ")"

/-- `IDAChatCore.process_message` (ida_chat_core.py:352-424).  `connected`
models `self.client is not None`; `initCancelFlag` models the value of
`self._cancelled` on entry, which line 379 overwrites with `False` before the
loop (so the result cannot depend on it); `cancel` gives the flag's value at
each subsequent loop-boundary check.  If never connected, raises before any
sink event, request, or history write.  Otherwise the user message is logged,
the loop runs, a loop exception propagates, and on normal exit the max-turns
error is reported whenever `turn >= max_turns`. -/
def processMessage (connected : Bool) (agent : Nat → Except String String)
    (ex : String → String) (cancel : Nat → Bool) (maxTurns : Nat)
    (userInput : String) (initCancelFlag : Bool) : PMResult :=
  if connected = false then
    ⟨⟨[], [], [], [], 0⟩, Outcome.raised notConnectedMsg⟩
  else
    let _cleared := initCancelFlag = false
    let lo := loopAux agent ex cancel maxTurns maxTurns 0 userInput
    match lo.exn with
    | some e => ⟨⟨lo.events, lo.requests, [userInput], lo.outputs, lo.turnsEnd⟩, Outcome.raised e⟩
    | none =>
      let evs := if maxTurns ≤ lo.turnsEnd then lo.events ++ [Event.error (maxTurnsMsg maxTurns)]
        else lo.events
      ⟨⟨evs, lo.requests, [userInput], lo.outputs, lo.turnsEnd⟩,
        Outcome.returned (String.intercalate "\n" lo.outputs)⟩

/-! ### The session log (`MessageHistory`, ida_chat_history.py)

The JSONL file is modelled as an in-memory list of lines.  A line is either
the serialization of an entry (which `json.loads` parses back), a malformed
line (on which `json.loads` raises `JSONDecodeError`), or a blank line.
`uuid.uuid4()` and the timestamp clock are modelled as fresh-supply counters
threaded through the state. -/

/-- The typed payload of a log entry (the role-specific `message` content). -/
inductive LogPayload
  | userText (text : String)
  | assistantText (text : String)
  | toolUse (toolUseId : String) (name : String) (input : String)
  | toolResult (toolUseId : String) (content : String) (isError : Bool)
  | thinking (text : String)
  | system (content : String) (level : String)
  deriving DecidableEq

/-- One JSONL entry (`_create_base_entry` plus the per-kind fields,
ida_chat_history.py:96-109). -/
structure LogEntry where
  uuid : String
  parentUuid : Option String
  sessionId : String
  timestamp : Nat
  payload : LogPayload
  deriving DecidableEq

/-- One physical line of a session file. -/
inductive LogLine
  | entryLine (e : LogEntry)
  | badLine
  | blankLine
  deriving DecidableEq

/-- The mutable state of a `MessageHistory` object plus the content of the
current session file (`self.session_file`). -/
structure HistoryState where
  binaryPath : String
  sessionId : Option String
  sessionFile : Option String
  parentUuid : Option String
  uuidCounter : Nat
  clock : Nat
  fileLines : List LogLine
  deriving DecidableEq

/-- The modelled result of `uuid.uuid4()` for the n-th draw. -/
def genUuid (n : Nat) : String := "uuid-" ++ Nat.repr n

/-- `MessageHistory.BASE_DIR` (`$HOME/.ida-chat/sessions`); `Path.home()` is
rendered as `~`. -/
def baseDir : String := "~/.ida-chat/sessions"

/-- `MessageHistory._encode_path` (ida_chat_history.py:43-60), step 1:
`re.sub(r'[/\\: ]', '_', path)`. -/
def encodeReplace (c : Char) : Char :=
  if c = '/' ∨ c = '\\' ∨ c = ':' ∨ c = ' ' then '_' else c

/-- `re.sub(r'_+', '_', ·)`: collapse each maximal run of underscores to a
single underscore. -/
def collapseUnderscores : List Char → List Char
  | [] => []
  | [c] => [c]
  | c :: d :: rest =>
    if c = '_' ∧ d = '_' then collapseUnderscores (d :: rest)
    else c :: collapseUnderscores (d :: rest)

/-- `MessageHistory._encode_path`: replace `/`, `\`, `:` and spaces with
underscores, strip leading underscores (`lstrip('_')`), collapse repeats. -/
def encodePath (p : String) : String :=
  String.mk (collapseUnderscores ((p.data.map encodeReplace).dropWhile (fun c => c = '_')))

/-- `MessageHistory.__init__` for a binary path: no session yet. -/
def mkHistory (binaryPath : String) : HistoryState :=
  ⟨binaryPath, none, none, none, 0, 0, []⟩

/-- `MessageHistory.start_new_session` (ida_chat_history.py:71-86): draw a new
session id, reset the chain root, create the (empty) session file named
`{session_id}.jsonl` inside the per-binary directory. -/
def startNewSession (st : HistoryState) : HistoryState × String :=
  let sid := genUuid st.uuidCounter
  (⟨st.binaryPath, some sid,
    some (baseDir ++ "/" ++ encodePath st.binaryPath ++ "/" ++ sid ++ ".jsonl"),
    none, st.uuidCounter + 1, st.clock, []⟩, sid)

/-- The `RuntimeError` message of every append when no session is active. -/
def noSessionMsg : String := "No active session. Call start_new_session() first."

/-- Common path of every `append_X`: check there is an active session file,
build the base entry (`_create_base_entry`: fresh uuid, `parentUuid` from the
in-memory chain head, session id, timestamp), attach the payload, and
`_write_entry` it (append one line, advance the chain head to this uuid). -/
def appendEntryPayload (st : HistoryState) (p : LogPayload) :
    Except String (HistoryState × String) :=
  match st.sessionFile with
  | none => Except.error noSessionMsg
  | some _ =>
    let u := genUuid st.uuidCounter
    let e : LogEntry := ⟨u, st.parentUuid, st.sessionId.getD "", st.clock, p⟩
    Except.ok (⟨st.binaryPath, st.sessionId, st.sessionFile, some u,
      st.uuidCounter + 1, st.clock + 1, st.fileLines ++ [LogLine.entryLine e]⟩, u)

/-- `MessageHistory.append_user_message`. -/
def appendUserMessage (st : HistoryState) (content : String) :
    Except String (HistoryState × String) :=
  appendEntryPayload st (LogPayload.userText content)

/-- `MessageHistory.append_assistant_message` (text content only; the model
name and usage fields are presentation data carried inside `message`). -/
def appendAssistantMessage (st : HistoryState) (content : String) :
    Except String (HistoryState × String) :=
  appendEntryPayload st (LogPayload.assistantText content)

/-- `MessageHistory.append_tool_use` (ida_chat_history.py:168-207): generate a
`toolu_<uuid>` correlation id when none is supplied. -/
def appendToolUse (st : HistoryState) (toolName : String) (input : String)
    (toolUseId : Option String) : Except String (HistoryState × String) :=
  match toolUseId with
  | some tid => appendEntryPayload st (LogPayload.toolUse tid toolName input)
  | none =>
    let tid := "toolu_" ++ genUuid st.uuidCounter
    appendEntryPayload { st with uuidCounter := st.uuidCounter + 1 }
      (LogPayload.toolUse tid toolName input)

/-- `MessageHistory.append_tool_result` (ida_chat_history.py:209-247). -/
def appendToolResult (st : HistoryState) (toolUseId : String) (result : String)
    (isError : Bool) : Except String (HistoryState × String) :=
  appendEntryPayload st (LogPayload.toolResult toolUseId result isError)

/-- `MessageHistory.append_thinking`. -/
def appendThinking (st : HistoryState) (thinking : String) :
    Except String (HistoryState × String) :=
  appendEntryPayload st (LogPayload.thinking thinking)

/-- `MessageHistory.append_system_message`. -/
def appendSystemMessage (st : HistoryState) (content : String) (level : String) :
    Except String (HistoryState × String) :=
  appendEntryPayload st (LogPayload.system content level)

/-- `MessageHistory.append_script_execution` (ida_chat_history.py:306-339):
generate one correlation id, append the `IDAPythonExec` tool-use entry, then
append the tool-result entry sharing that id. -/
def appendScriptExecution (st : HistoryState) (code output : String) (isError : Bool) :
    Except String (HistoryState × String) :=
  let tid := "toolu_" ++ genUuid st.uuidCounter
  let st0 := { st with uuidCounter := st.uuidCounter + 1 }
  match appendToolUse st0 "IDAPythonExec" code (some tid) with
  | Except.error e => Except.error e
  | Except.ok (st1, _) => appendToolResult st1 tid output isError

/-- The turn loop's history call `self.history.append_script_execution(code,
output)` (ida_chat_core.py:340): the `is_error` keyword is never passed, so
Python's default `False` always applies. -/
def coreAppendScriptExecution (st : HistoryState) (code output : String) :
    Except String (HistoryState × String) :=
  appendScriptExecution st code output false

/-- `MessageHistory.load_session` (ida_chat_history.py:356-380) applied to the
lines of a session file: skip blank lines, parse each remaining line, skip any
line on which parsing raises, collect the parsed entries in file order. -/
def loadSession (lines : List LogLine) : List LogEntry :=
  lines.filterMap (fun l =>
    match l with
    | LogLine.entryLine e => some e
    | LogLine.badLine => none
    | LogLine.blankLine => none)

/-- The `message_count` computed by `MessageHistory.list_sessions`
(ida_chat_history.py:400-423) for one session file: one per line that parses,
skipping blank and malformed lines individually. -/
def listSessionCount : List LogLine → Nat
  | [] => 0
  | LogLine.entryLine _ :: rest => listSessionCount rest + 1
  | LogLine.badLine :: rest => listSessionCount rest
  | LogLine.blankLine :: rest => listSessionCount rest

/-- One generic append operation (each writes exactly one entry). -/
inductive AppendOp
  | user (s : String)
  | assistant (s : String)
  | toolUse (name input : String)
  | toolResult (tid content : String) (isErr : Bool)
  | thinking (s : String)
  | system (content level : String)
  deriving DecidableEq

/-- Dispatch one append operation to the corresponding `MessageHistory`
method. -/
def applyOp (st : HistoryState) : AppendOp → Except String (HistoryState × String)
  | AppendOp.user s => appendUserMessage st s
  | AppendOp.assistant s => appendAssistantMessage st s
  | AppendOp.toolUse n i => appendToolUse st n i none
  | AppendOp.toolResult tid c b => appendToolResult st tid c b
  | AppendOp.thinking s => appendThinking st s
  | AppendOp.system c l => appendSystemMessage st c l

/-- Run a sequence of append operations. -/
def applyOps (st : HistoryState) : List AppendOp → Except String HistoryState
  | [] => Except.ok st
  | op :: ops =>
    match applyOp st op with
    | Except.error e => Except.error e
    | Except.ok (st1, _) => applyOps st1 ops

/-- The causal chain invariant: each entry's `parentUuid` equals the previous
entry's `uuid`, starting from the given chain root. -/
def chainOk : Option String → List LogEntry → Bool
  | _, [] => true
  | p, e :: es => (e.parentUuid == p) && chainOk (some e.uuid) es

/-- The chain head after a list of entries (the last written uuid). -/
def lastUuidFrom (p : Option String) : List LogEntry → Option String
  | [] => p
  | e :: es => lastUuidFrom (some e.uuid) es

/-- Projection for stating concrete facts about an append result. -/
def okLines : Except String HistoryState → List LogLine
  | Except.ok st => st.fileLines
  | Except.error _ => []

/-- Projection of the file lines out of an append-with-uuid result. -/
def okLines2 : Except String (HistoryState × String) → List LogLine
  | Except.ok (st, _) => st.fileLines
  | Except.error _ => []

/-- Extending a valid chain by one entry whose parent is the current chain
head keeps the chain valid. -/
theorem chainOk_append :
    ∀ (es : List LogEntry) (p : Option String) (e : LogEntry),
      chainOk p es = true → e.parentUuid = lastUuidFrom p es →
      chainOk p (es ++ [e]) = true := by
  intro es
  induction es with
  | nil =>
    intro p e _ hpar
    have hpp : e.parentUuid = p := hpar
    simp [chainOk, hpp]
  | cons e0 es ih =>
    intro p e hok hpar
    rw [chainOk, Bool.and_eq_true] at hok
    rw [List.cons_append, chainOk, Bool.and_eq_true]
    exact ⟨hok.1, ih (some e0.uuid) e hok.2 hpar⟩

/-- The chain head after appending one entry is that entry's uuid. -/
theorem lastUuidFrom_append :
    ∀ (es : List LogEntry) (p : Option String) (e : LogEntry),
      lastUuidFrom p (es ++ [e]) = some e.uuid := by
  intro es
  induction es with
  | nil => intro p e; rfl
  | cons e0 es ih => intro p e; rw [List.cons_append, lastUuidFrom, ih]

/-- `loadSession` distributes over file concatenation. -/
theorem loadSession_append (l1 l2 : List LogLine) :
    loadSession (l1 ++ l2) = loadSession l1 ++ loadSession l2 := by
  rw [loadSession, loadSession, loadSession, List.filterMap_append]

/-- Invariant tying a `MessageHistory` state to its file: a session is active,
every line in the file parses, the parsed entries form a valid causal chain
from the null root, and the in-memory chain head is the last written uuid. -/
def HistInv (st : HistoryState) : Prop :=
  st.sessionFile.isSome = true ∧
  st.fileLines = (loadSession st.fileLines).map LogLine.entryLine ∧
  chainOk none (loadSession st.fileLines) = true ∧
  st.parentUuid = lastUuidFrom none (loadSession st.fileLines)

/-- A freshly started session satisfies the invariant. -/
theorem startNewSession_inv (st : HistoryState) : HistInv (startNewSession st).1 :=
  ⟨rfl, rfl, rfl, rfl⟩

/-- Shape of one successful low-level append. -/
theorem appendEntryPayload_step {st : HistoryState} (h : st.sessionFile.isSome = true)
    (p : LogPayload) :
    ∃ st1 u e, appendEntryPayload st p = Except.ok (st1, u) ∧
      st1.fileLines = st.fileLines ++ [LogLine.entryLine e] ∧
      e.parentUuid = st.parentUuid ∧ e.uuid = u ∧ e.payload = p ∧
      st1.parentUuid = some u ∧ st1.sessionFile = st.sessionFile ∧
      st1.sessionId = st.sessionId ∧ st1.binaryPath = st.binaryPath := by
  obtain ⟨f, hf⟩ := Option.isSome_iff_exists.mp h
  refine ⟨⟨st.binaryPath, st.sessionId, st.sessionFile, some (genUuid st.uuidCounter),
    st.uuidCounter + 1, st.clock + 1, st.fileLines ++
      [LogLine.entryLine ⟨genUuid st.uuidCounter, st.parentUuid, st.sessionId.getD "",
        st.clock, p⟩]⟩,
    genUuid st.uuidCounter,
    ⟨genUuid st.uuidCounter, st.parentUuid, st.sessionId.getD "", st.clock, p⟩,
    ?_, rfl, rfl, rfl, rfl, rfl, rfl, rfl, rfl⟩
  simp only [appendEntryPayload, hf]

/-- Every append operation succeeds on an invariant state, appends exactly one
parsed entry chained to the previous head, and preserves the invariant. -/
theorem applyOp_inv {st : HistoryState} (hinv : HistInv st) (op : AppendOp) :
    ∃ st1 u, applyOp st op = Except.ok (st1, u) ∧ HistInv st1 ∧
      (∃ e, st1.fileLines = st.fileLines ++ [LogLine.entryLine e]) := by
  obtain ⟨hsess, hgood, hchain, hpar⟩ := hinv
  have main : ∀ (st' : HistoryState) (p : LogPayload),
      st'.sessionFile = st.sessionFile → st'.fileLines = st.fileLines →
      st'.parentUuid = st.parentUuid →
      ∃ st1 u, appendEntryPayload st' p = Except.ok (st1, u) ∧ HistInv st1 ∧
        (∃ e, st1.fileLines = st.fileLines ++ [LogLine.entryLine e]) := by
    intro st' p hf hl hp
    obtain ⟨st1, u, e, heq, hlines, hepar, heu, hepl, hpar1, hfile1, _, _⟩ :=
      @appendEntryPayload_step st' (by rw [hf]; exact hsess) p
    rw [hl] at hlines
    have hload : loadSession st1.fileLines = loadSession st.fileLines ++ [e] := by
      rw [hlines, loadSession_append]; rfl
    refine ⟨st1, u, heq, ⟨by rw [hfile1, hf]; exact hsess, ?_, ?_, ?_⟩, e, hlines⟩
    · rw [hload, List.map_append, ← hgood, hlines]; rfl
    · rw [hload]
      exact chainOk_append _ none e hchain (by rw [hepar, hp, hpar])
    · rw [hload, lastUuidFrom_append, hpar1, heu]
  cases op with
  | user s => exact main st _ rfl rfl rfl
  | assistant s => exact main st _ rfl rfl rfl
  | toolUse n i => exact main { st with uuidCounter := st.uuidCounter + 1 } _ rfl rfl rfl
  | toolResult tid c b => exact main st _ rfl rfl rfl
  | thinking s => exact main st _ rfl rfl rfl
  | system c l => exact main st _ rfl rfl rfl

/-- Running a sequence of append operations from an invariant state: all
succeed, the invariant holds throughout, the file grows append-only, and
exactly one parsed entry is added per operation. -/
theorem applyOps_inv :
    ∀ (ops : List AppendOp) (st : HistoryState), HistInv st →
      ∃ stF, applyOps st ops = Except.ok stF ∧ HistInv stF ∧
        (loadSession stF.fileLines).length = (loadSession st.fileLines).length + ops.length ∧
        st.fileLines <+: stF.fileLines := by
  intro ops
  induction ops with
  | nil =>
    intro st hinv
    exact ⟨st, rfl, hinv, by simp, List.prefix_refl _⟩
  | cons op ops ih =>
    intro st hinv
    obtain ⟨st1, u, heq, hinv1, e, hlines⟩ := applyOp_inv hinv op
    obtain ⟨stF, heqF, hinvF, hlenF, hprefF⟩ := ih st1 hinv1
    refine ⟨stF, ?_, hinvF, ?_, ?_⟩
    · simp only [applyOps, heq]
      exact heqF
    · rw [hlenF, hlines, loadSession_append]
      simp [loadSession, Nat.add_assoc, Nat.add_comm 1 ops.length]
    · exact List.IsPrefix.trans ⟨[LogLine.entryLine e], hlines.symm⟩ hprefF

/-- `applyOps` over a concatenation runs the two batches in sequence. -/
theorem applyOps_append :
    ∀ (ops1 ops2 : List AppendOp) (st : HistoryState),
      applyOps st (ops1 ++ ops2) =
        match applyOps st ops1 with
        | Except.error e => Except.error e
        | Except.ok st1 => applyOps st1 ops2 := by
  intro ops1
  induction ops1 with
  | nil => intro ops2 st; rfl
  | cons op ops1 ih =>
    intro ops2 st
    rw [List.cons_append, applyOps, applyOps]
    cases applyOp st op with
    | error e => rfl
    | ok p => exact ih ops2 p.1

/-! ### Lemmas about the turn loop -/

/-- The outputs of a processed response: one executor result per extracted
script, each run on the stripped fragment. -/
theorem processSingleResponse_outputs (ex : String → String) (resp : String) :
    (processSingleResponse ex resp).outputs =
      (extractScripts resp).map (fun sc => ex (pyStrip sc)) := by
  simp [processSingleResponse]

/-- The scripts of a processed response are exactly the extracted fragments. -/
theorem processSingleResponse_scripts (ex : String → String) (resp : String) :
    (processSingleResponse ex resp).scripts = extractScripts resp := rfl

/-- Classification of the events a single response processing can emit. -/
theorem processSingleResponse_events_cases (ex : String → String) (resp : String) :
    ∀ e ∈ (processSingleResponse ex resp).events,
      e = Event.thinkingDone ∨ (∃ s, e = Event.text s) ∨
        (∃ c, e = Event.scriptCode c) ∨ (∃ o, e = Event.scriptOutput o) := by
  intro e he
  simp only [processSingleResponse, List.mem_cons, List.mem_append] at he
  rcases he with h | h | h
  · exact Or.inl h
  · by_cases hc : displayText resp = ""
    · simp [hc] at h
    · simp only [if_neg hc, List.mem_singleton] at h
      exact Or.inr (Or.inl ⟨_, h⟩)
  · rw [List.mem_flatten] at h
    obtain ⟨l, hl, hel⟩ := h
    rw [List.mem_map] at hl
    obtain ⟨r, _, rfl⟩ := hl
    rw [List.mem_cons] at hel
    rcases hel with h2 | h2
    · exact Or.inr (Or.inr (Or.inl ⟨_, h2⟩))
    · by_cases ho : r.2 = ""
      · simp [ho] at h2
      · simp only [if_neg ho, List.mem_singleton] at h2
        exact Or.inr (Or.inr (Or.inr ⟨_, h2⟩))

/-- Loop step: the cancellation flag is set at the iteration boundary. -/
theorem loopAux_cancel {agent : Nat → Except String String} {ex : String → String}
    {cancel : Nat → Bool} {maxT fuel turn : Nat} {input : String}
    (hc : cancel turn = true) :
    loopAux agent ex cancel maxT (fuel + 1) turn input =
      ⟨turn, [Event.error "Operation cancelled"], [], [], none⟩ := by
  simp only [loopAux, hc, if_true]

/-- Loop step: the transport raises while processing the turn. -/
theorem loopAux_err {agent : Nat → Except String String} {ex : String → String}
    {cancel : Nat → Bool} {maxT fuel turn : Nat} {input : String} {e : String}
    (hc : cancel turn = false) (ha : agent (turn + 1) = Except.error e) :
    loopAux agent ex cancel maxT (fuel + 1) turn input =
      ⟨turn + 1, [Event.turnStart (turn + 1) maxT, Event.thinking], [input], [], some e⟩ := by
  simp only [loopAux, hc, ha, Bool.false_eq_true, if_false]

/-- Loop step: the response contains no script — the natural stop. -/
theorem loopAux_done {agent : Nat → Except String String} {ex : String → String}
    {cancel : Nat → Bool} {maxT fuel turn : Nat} {input : String} {r : String}
    (hc : cancel turn = false) (ha : agent (turn + 1) = Except.ok r)
    (hs : (processSingleResponse ex r).scripts = []) :
    loopAux agent ex cancel maxT (fuel + 1) turn input =
      ⟨turn + 1,
        Event.turnStart (turn + 1) maxT :: Event.thinking :: (processSingleResponse ex r).events,
        [input], (processSingleResponse ex r).outputs, none⟩ := by
  simp only [loopAux, hc, ha, Bool.false_eq_true, if_false, hs, List.isEmpty_nil, if_true]

/-- Loop step: scripts were found, so their formatted outputs become the next
turn's input and the loop continues. -/
theorem loopAux_step {agent : Nat → Except String String} {ex : String → String}
    {cancel : Nat → Bool} {maxT fuel turn : Nat} {input : String} {r : String}
    (hc : cancel turn = false) (ha : agent (turn + 1) = Except.ok r)
    (hs : (processSingleResponse ex r).scripts ≠ []) :
    loopAux agent ex cancel maxT (fuel + 1) turn input =
      ⟨(loopAux agent ex cancel maxT fuel (turn + 1)
          (nextInput (processSingleResponse ex r).scripts
            (processSingleResponse ex r).outputs)).turnsEnd,
        (Event.turnStart (turn + 1) maxT :: Event.thinking ::
            (processSingleResponse ex r).events) ++
          (loopAux agent ex cancel maxT fuel (turn + 1)
            (nextInput (processSingleResponse ex r).scripts
              (processSingleResponse ex r).outputs)).events,
        input :: (loopAux agent ex cancel maxT fuel (turn + 1)
          (nextInput (processSingleResponse ex r).scripts
            (processSingleResponse ex r).outputs)).requests,
        (processSingleResponse ex r).outputs ++
          (loopAux agent ex cancel maxT fuel (turn + 1)
            (nextInput (processSingleResponse ex r).scripts
              (processSingleResponse ex r).outputs)).outputs,
        (loopAux agent ex cancel maxT fuel (turn + 1)
          (nextInput (processSingleResponse ex r).scripts
            (processSingleResponse ex r).outputs)).exn⟩ := by
  have hs' : (processSingleResponse ex r).scripts.isEmpty = false := by
    cases hlist : (processSingleResponse ex r).scripts with
    | nil => exact absurd hlist hs
    | cons a l => rfl
  simp only [loopAux, hc, ha, Bool.false_eq_true, if_false, hs']

/-- If the transport never raises, no exception escapes the loop: extractor
and executor results are data, not exceptions. -/
theorem loopAux_exn_none {agent : Nat → Except String String} {ex : String → String}
    {cancel : Nat → Bool} {maxT : Nat} (hok : ∀ t, ∃ r, agent t = Except.ok r) :
    ∀ (fuel turn : Nat) (input : String),
      (loopAux agent ex cancel maxT fuel turn input).exn = none := by
  intro fuel
  induction fuel with
  | zero => intro turn input; rfl
  | succ fuel ih =>
    intro turn input
    cases hc : cancel turn with
    | true => rw [loopAux_cancel hc]
    | false =>
      obtain ⟨r, ha⟩ := hok (turn + 1)
      by_cases hs : (processSingleResponse ex r).scripts = []
      · rw [loopAux_done hc ha hs]
      · rw [loopAux_step hc ha hs]
        exact ih (turn + 1) _

/-- Any `on_error` notification emitted from inside the `while` loop is the
cancellation notice; the max-turns error is only appended after the loop. -/
theorem loopAux_error_events {agent : Nat → Except String String} {ex : String → String}
    {cancel : Nat → Bool} {maxT : Nat} :
    ∀ (fuel turn : Nat) (input msg : String),
      Event.error msg ∈ (loopAux agent ex cancel maxT fuel turn input).events →
      msg = "Operation cancelled" := by
  intro fuel
  induction fuel with
  | zero => intro turn input msg h; exact absurd h (by simp [loopAux])
  | succ fuel ih =>
    intro turn input msg h
    cases hc : cancel turn with
    | true =>
      rw [loopAux_cancel hc] at h
      simp only [List.mem_singleton] at h
      exact (Event.error.injEq _ _).mp h.symm |>.symm
    | false =>
      cases ha : agent (turn + 1) with
      | error e =>
        rw [loopAux_err hc ha] at h
        simp at h
      | ok r =>
        by_cases hs : (processSingleResponse ex r).scripts = []
        · rw [loopAux_done hc ha hs] at h
          simp only [List.mem_cons] at h
          rcases h with h | h | h
          · exact absurd h (by simp)
          · exact absurd h (by simp)
          · rcases processSingleResponse_events_cases ex r _ h with h2 | ⟨s, h2⟩ | ⟨c, h2⟩ | ⟨o, h2⟩ <;>
              simp at h2
        · rw [loopAux_step hc ha hs] at h
          simp only [List.mem_append, List.mem_cons] at h
          rcases h with (h | h | h) | h
          · exact absurd h (by simp)
          · exact absurd h (by simp)
          · rcases processSingleResponse_events_cases ex r _ h with h2 | ⟨s, h2⟩ | ⟨c, h2⟩ | ⟨o, h2⟩ <;>
              simp at h2
          · exact ih (turn + 1) _ msg h

/-- The completed-turn counter never decreases across the loop. -/
theorem loopAux_turnsEnd_ge {agent : Nat → Except String String} {ex : String → String}
    {cancel : Nat → Bool} {maxT : Nat} :
    ∀ (fuel turn : Nat) (input : String),
      turn ≤ (loopAux agent ex cancel maxT fuel turn input).turnsEnd := by
  intro fuel
  induction fuel with
  | zero => intro turn input; exact Nat.le_refl _
  | succ fuel ih =>
    intro turn input
    cases hc : cancel turn with
    | true => rw [loopAux_cancel hc]
    | false =>
      cases ha : agent (turn + 1) with
      | error e => rw [loopAux_err hc ha]; exact Nat.le_succ _
      | ok r =>
        by_cases hs : (processSingleResponse ex r).scripts = []
        · rw [loopAux_done hc ha hs]; exact Nat.le_succ _
        · rw [loopAux_step hc ha hs]
          exact Nat.le_trans (Nat.le_succ _) (ih (turn + 1) _)

/-- No `on_turn_start` for a turn index beyond the last completed turn is ever
emitted. -/
theorem loopAux_turnStart_bound {agent : Nat → Except String String} {ex : String → String}
    {cancel : Nat → Bool} {maxT : Nat} :
    ∀ (fuel turn : Nat) (input : String) (t m : Nat),
      Event.turnStart t m ∈ (loopAux agent ex cancel maxT fuel turn input).events →
      t ≤ (loopAux agent ex cancel maxT fuel turn input).turnsEnd := by
  intro fuel
  induction fuel with
  | zero => intro turn input t m h; exact absurd h (by simp [loopAux])
  | succ fuel ih =>
    intro turn input t m h
    cases hc : cancel turn with
    | true =>
      rw [loopAux_cancel hc] at h
      simp at h
    | false =>
      cases ha : agent (turn + 1) with
      | error e =>
        rw [loopAux_err hc ha] at h ⊢
        simp only [List.mem_cons, List.mem_singleton] at h
        rcases h with h | h | h
        · cases h; exact Nat.le_refl _
        · exact absurd h (by simp)
        · exact absurd h (by simp)
      | ok r =>
        by_cases hs : (processSingleResponse ex r).scripts = []
        · rw [loopAux_done hc ha hs] at h ⊢
          simp only [List.mem_cons] at h
          rcases h with h | h | h
          · cases h; exact Nat.le_refl _
          · exact absurd h (by simp)
          · rcases processSingleResponse_events_cases ex r _ h with h2 | ⟨s, h2⟩ | ⟨c, h2⟩ | ⟨o, h2⟩ <;>
              simp at h2
        · rw [loopAux_step hc ha hs] at h ⊢
          simp only [List.mem_append, List.mem_cons] at h
          have hmono := @loopAux_turnsEnd_ge agent ex cancel maxT fuel (turn + 1)
            (nextInput (processSingleResponse ex r).scripts
              (processSingleResponse ex r).outputs)
          rcases h with (h | h | h) | h
          · cases h; exact hmono
          · exact absurd h (by simp)
          · rcases processSingleResponse_events_cases ex r _ h with h2 | ⟨s, h2⟩ | ⟨c, h2⟩ | ⟨o, h2⟩ <;>
              simp at h2
          · exact ih (turn + 1) _ t m h

/-- A full run against an agent stub that returns exactly one fragment every
turn, with no cancellation: the loop uses all its fuel, performs one execution
per turn, and no exception escapes. -/
theorem loopAux_single_script_run {agent : Nat → Except String String} {ex : String → String}
    {cancel : Nat → Bool} {maxT : Nat} :
    ∀ (fuel turn : Nat) (input : String),
      (∀ k, turn ≤ k → k < turn + fuel → cancel k = false) →
      (∀ t, turn < t → t ≤ turn + fuel →
        ∃ r s, agent t = Except.ok r ∧ extractScripts r = [s]) →
      (loopAux agent ex cancel maxT fuel turn input).turnsEnd = turn + fuel ∧
      (loopAux agent ex cancel maxT fuel turn input).exn = none ∧
      (loopAux agent ex cancel maxT fuel turn input).outputs.length = fuel ∧
      (loopAux agent ex cancel maxT fuel turn input).requests.length = fuel := by
  intro fuel
  induction fuel with
  | zero => intro turn input _ _; exact ⟨rfl, rfl, rfl, rfl⟩
  | succ fuel ih =>
    intro turn input hcan hag
    have hc : cancel turn = false := hcan turn (Nat.le_refl _) (by omega)
    obtain ⟨r, sfrag, ha, hex⟩ := hag (turn + 1) (by omega) (by omega)
    have hs : (processSingleResponse ex r).scripts ≠ [] := by
      rw [processSingleResponse_scripts, hex]; simp
    have houts : (processSingleResponse ex r).outputs.length = 1 := by
      rw [processSingleResponse_outputs, hex]; rfl
    obtain ⟨ih1, ih2, ih3, ih4⟩ := ih (turn + 1)
      (nextInput (processSingleResponse ex r).scripts (processSingleResponse ex r).outputs)
      (fun k h1 h2 => hcan k (by omega) (by omega))
      (fun t h1 h2 => hag t (by omega) (by omega))
    rw [loopAux_step hc ha hs]
    refine ⟨?_, ih2, ?_, ?_⟩
    · show (loopAux agent ex cancel maxT fuel (turn + 1) _).turnsEnd = turn + (fuel + 1)
      omega
    · show ((processSingleResponse ex r).outputs ++ _).length = fuel + 1
      rw [List.length_append, houts, ih3]; omega
    · show (input :: _).length = fuel + 1
      rw [List.length_cons, ih4]

/-- A run in which a cancellation request becomes visible at the boundary
after `k` completed turns (the agent returning one fragment per turn up to
there): the loop stops at `k` turns, sends no further request, and its final
sink event is the cancellation notice. -/
theorem loopAux_cancel_run {agent : Nat → Except String String} {ex : String → String}
    {cancel : Nat → Bool} {maxT : Nat} {k : Nat} (hck : cancel k = true) :
    ∀ (fuel turn : Nat) (input : String), turn ≤ k → k < turn + fuel →
      (∀ j, turn ≤ j → j < k → cancel j = false) →
      (∀ t, turn < t → t ≤ k → ∃ r s, agent t = Except.ok r ∧ extractScripts r = [s]) →
      (loopAux agent ex cancel maxT fuel turn input).turnsEnd = k ∧
      (loopAux agent ex cancel maxT fuel turn input).exn = none ∧
      (loopAux agent ex cancel maxT fuel turn input).requests.length = k - turn ∧
      (loopAux agent ex cancel maxT fuel turn input).events.getLast? =
        some (Event.error "Operation cancelled") := by
  intro fuel
  induction fuel with
  | zero => intro turn input h1 h2 _ _; omega
  | succ fuel ih =>
    intro turn input hle hlt hfalse hag
    rcases Nat.lt_or_ge turn k with hturn | hturn
    · have hc : cancel turn = false := hfalse turn (Nat.le_refl _) hturn
      obtain ⟨r, sfrag, ha, hex⟩ := hag (turn + 1) (by omega) (by omega)
      have hs : (processSingleResponse ex r).scripts ≠ [] := by
        rw [processSingleResponse_scripts, hex]; simp
      obtain ⟨ih1, ih2, ih3, ih4⟩ := ih (turn + 1)
        (nextInput (processSingleResponse ex r).scripts (processSingleResponse ex r).outputs)
        (by omega) (by omega)
        (fun j hj1 hj2 => hfalse j (by omega) hj2)
        (fun t ht1 ht2 => hag t (by omega) ht2)
      rw [loopAux_step hc ha hs]
      have hne : (loopAux agent ex cancel maxT fuel (turn + 1)
          (nextInput (processSingleResponse ex r).scripts
            (processSingleResponse ex r).outputs)).events ≠ [] := by
        intro hnil
        rw [hnil] at ih4
        exact absurd ih4 (by simp)
      refine ⟨ih1, ih2, ?_, ?_⟩
      · show (input :: _).length = k - turn
        rw [List.length_cons, ih3]; omega
      · show ((Event.turnStart (turn + 1) maxT :: Event.thinking ::
            (processSingleResponse ex r).events) ++
            (loopAux agent ex cancel maxT fuel (turn + 1)
              (nextInput (processSingleResponse ex r).scripts
                (processSingleResponse ex r).outputs)).events).getLast? =
          some (Event.error "Operation cancelled")
        rw [List.getLast?_append_of_ne_nil _ hne]
        exact ih4
    · have hk : turn = k := by omega
      subst hk
      rw [loopAux_cancel hck]
      exact ⟨rfl, rfl, by simp, rfl⟩

/-- Unfolding `process_message` when the loop finishes without an exception. -/
theorem processMessage_ok {agent : Nat → Except String String} {ex : String → String}
    {cancel : Nat → Bool} {maxT : Nat} {u : String} {b : Bool}
    (hexn : (loopAux agent ex cancel maxT maxT 0 u).exn = none) :
    processMessage true agent ex cancel maxT u b =
      ⟨⟨(if maxT ≤ (loopAux agent ex cancel maxT maxT 0 u).turnsEnd then
            (loopAux agent ex cancel maxT maxT 0 u).events ++ [Event.error (maxTurnsMsg maxT)]
          else (loopAux agent ex cancel maxT maxT 0 u).events),
        (loopAux agent ex cancel maxT maxT 0 u).requests, [u],
        (loopAux agent ex cancel maxT maxT 0 u).outputs,
        (loopAux agent ex cancel maxT maxT 0 u).turnsEnd⟩,
        Outcome.returned
          (String.intercalate "\n" (loopAux agent ex cancel maxT maxT 0 u).outputs)⟩ := by
  simp only [processMessage, Bool.true_eq_false, if_false, hexn]

/-- Unfolding `process_message` when an exception escapes the loop. -/
theorem processMessage_raised {agent : Nat → Except String String} {ex : String → String}
    {cancel : Nat → Bool} {maxT : Nat} {u : String} {b : Bool} {e : String}
    (hexn : (loopAux agent ex cancel maxT maxT 0 u).exn = some e) :
    processMessage true agent ex cancel maxT u b =
      ⟨⟨(loopAux agent ex cancel maxT maxT 0 u).events,
        (loopAux agent ex cancel maxT maxT 0 u).requests, [u],
        (loopAux agent ex cancel maxT maxT 0 u).outputs,
        (loopAux agent ex cancel maxT maxT 0 u).turnsEnd⟩,
        Outcome.raised e⟩ := by
  simp only [processMessage, Bool.true_eq_false, if_false, hexn]

/-- The max-turns message is never the cancellation message. -/
theorem maxTurnsMsg_ne_cancelled (n : Nat) : maxTurnsMsg n ≠ "Operation cancelled" := by
  intro h
  have hl := congrArg String.length h
  rw [maxTurnsMsg, String.length_append, String.length_append] at hl
  have h1 : ("Reached maximum turns (" : String).length = 23 := rfl
  have h2 : (")" : String).length = 1 := rfl
  have h3 : ("Operation cancelled" : String).length = 19 := rfl
  omega

/-! ### The claims -/

/-- C2: for every code behaviour and prior stdout, the default script executor
returns a plain string (never raises): the full captured output of the
redirected stream on normal completion, and exactly `"Script error: <message>"`
when the executed code raises; in both cases `sys.stdout` is restored to its
prior value. -/
theorem C2_default_executor (run : ScriptRun) (stdout0 : Stdout) :
    (defaultExecuteScript run stdout0).2 = stdout0 ∧
    (∀ u, run.outcome = Except.ok u →
      (defaultExecuteScript run stdout0).1 = run.printed) ∧
    (∀ e, run.outcome = Except.error e →
      (defaultExecuteScript run stdout0).1 = "Script error: " ++ e) := by
  obtain ⟨printed, outcome⟩ := run
  cases outcome with
  | ok u =>
    refine ⟨rfl, fun _ _ => ?_, fun e h => by exact absurd h (by simp)⟩
    show getvalue (writeOut (Stdout.captured "") printed) = printed
    simp [writeOut, getvalue]
  | error e0 =>
    refine ⟨rfl, fun u h => by exact absurd h (by simp), fun e h => ?_⟩
    have he : e0 = e := by
      have := (Except.error.injEq (ε := String) (α := Unit) e0 e).mp h
      exact this
    subst he
    rfl

/-- Witness for C2 at a concrete failing and a concrete succeeding script. -/
theorem C2_default_executor_witness :
    (defaultExecuteScript ⟨"partial", Except.error "boom"⟩ (Stdout.real "prior")).1 =
        "Script error: boom" ∧
    (defaultExecuteScript ⟨"partial", Except.error "boom"⟩ (Stdout.real "prior")).2 =
        Stdout.real "prior" ∧
    (defaultExecuteScript ⟨"hello\n", Except.ok ()⟩ (Stdout.real "prior")).1 = "hello\n" := by
  refine ⟨(C2_default_executor ⟨"partial", Except.error "boom"⟩ (Stdout.real "prior")).2.2
      "boom" rfl,
    (C2_default_executor ⟨"partial", Except.error "boom"⟩ (Stdout.real "prior")).1, ?_⟩
  exact (C2_default_executor ⟨"hello\n", Except.ok ()⟩ (Stdout.real "prior")).2.1 () rfl

/-- C5: a response text with zero delimiter pairs yields no fragment and its
display text is the trimmed original; a well-formed text (literals free of the
open tag interleaved with fragments free of the close tag) yields exactly the
fragments in left-to-right order, and its display text is the original with
all delimited spans removed, whitespace-trimmed. -/
theorem C5_extractor (s : String) :
    ((¬ ∃ b m a : List Char, s.data = b ++ openTag ++ m ++ closeTag ++ a) →
      extractScripts s = [] ∧ displayText s = pyStrip s) ∧
    (∀ (pieces : List (List Char × List Char)) (last : List Char),
      (∀ pc ∈ pieces, findSplit openTag pc.1 = none ∧ findSplit closeTag pc.2 = none) →
      findSplit openTag last = none →
      s.data = renderL pieces last →
      extractScripts s = pieces.map (fun pc => String.mk pc.2) ∧
        displayText s = pyStrip (String.mk (litsConcat pieces last))) := by
  constructor
  · exact extract_remove_no_pair s
  · intro pieces last hwf hlast hdata
    obtain ⟨hex, hrm⟩ := extract_remove_render pieces last hwf hlast
    constructor
    · rw [extractScripts, hdata, hex, List.map_map]
      rfl
    · rw [displayText, hdata, hrm]

/-- Witness for C5 on a concrete two-fragment response. -/
theorem C5_extractor_witness :
    extractScripts "Hi <idascript>print(1)</idascript> mid <idascript>x</idascript> end" =
        ["print(1)", "x"] ∧
    displayText "Hi <idascript>print(1)</idascript> mid <idascript>x</idascript> end" =
        "Hi  mid  end" := by
  have h := (C5_extractor
      "Hi <idascript>print(1)</idascript> mid <idascript>x</idascript> end").2
    [("Hi ".data, "print(1)".data), (" mid ".data, "x".data)] " end".data
    (by decide) (by decide) (by decide)
  exact ⟨h.1.trans (by decide), h.2.trans (by decide)⟩

/-- The path encoding as the specification words it: replace path separators
and spaces with underscores and collapse repeated underscores — nothing else
(no colon replacement, no stripping of leading underscores). -/
def encodeReplaceClaimed (c : Char) : Char :=
  if c = '/' ∨ c = '\\' ∨ c = ' ' then '_' else c

/-- The directory-name derivation as claimed by the specification. -/
def encodePathClaimed (p : String) : String :=
  String.mk (collapseUnderscores (p.data.map encodeReplaceClaimed))

/-- An independent right-fold implementation of "collapse each run of
underscores to one underscore". -/
def collapseFold (l : List Char) : List Char :=
  l.foldr (fun c acc => if c = '_' ∧ acc.head? = some '_' then acc else c :: acc) []

theorem collapseFold_cons (c : Char) (l : List Char) :
    collapseFold (c :: l) =
      if c = '_' ∧ (collapseFold l).head? = some '_' then collapseFold l
      else c :: collapseFold l := rfl

/-- The fold-based collapse preserves the head character. -/
theorem collapseFold_head : ∀ (d : Char) (l : List Char),
    (collapseFold (d :: l)).head? = some d := by
  intro d l
  induction l generalizing d with
  | nil =>
    rw [collapseFold_cons, if_neg (fun hcon => by simp [collapseFold] at hcon)]
    rfl
  | cons e l ih =>
    rw [collapseFold_cons]
    by_cases h : d = '_' ∧ (collapseFold (e :: l)).head? = some '_'
    · rw [if_pos h, ih e]
      have he : e = '_' := by
        have h2 := h.2
        rw [ih e] at h2
        exact Option.some.inj h2
      rw [he, h.1]
    · rw [if_neg h]
      rfl

/-- The scanner-style collapse of the embedding agrees with the independent
fold-based collapse. -/
theorem collapseUnderscores_eq_fold : ∀ l : List Char, collapseUnderscores l = collapseFold l := by
  intro l
  induction l with
  | nil => rfl
  | cons c rest ih =>
    cases rest with
    | nil =>
      rw [collapseFold_cons, if_neg (fun hcon => by simp [collapseFold] at hcon)]
      rfl
    | cons d rest2 =>
      rw [collapseUnderscores]
      by_cases hcd : c = '_' ∧ d = '_'
      · rw [if_pos hcd, ih, collapseFold_cons c (d :: rest2),
          if_pos ⟨hcd.1, by rw [collapseFold_head d rest2, hcd.2]⟩]
      · rw [if_neg hcd, ih, collapseFold_cons c (d :: rest2),
          if_neg (fun hcon => hcd ⟨hcon.1, by
            have h2 := hcon.2
            rw [collapseFold_head d rest2] at h2
            exact Option.some.inj h2⟩)]

/-- C8: reading a session file back skips blank and malformed lines
individually and never fails: deleting one bad line from anywhere leaves the
parse result of the rest intact, and a file of N well-formed lines with one
malformed line interposed yields exactly the N parsed entries (for both
`load_session` and the `message_count` of `list_sessions`). -/
theorem C8_corrupt_lines :
    (∀ l1 l2 : List LogLine,
      loadSession (l1 ++ LogLine.badLine :: l2) = loadSession l1 ++ loadSession l2 ∧
      listSessionCount (l1 ++ LogLine.badLine :: l2) =
        listSessionCount l1 + listSessionCount l2) ∧
    (∀ g1 g2 : List LogEntry,
      loadSession (g1.map LogLine.entryLine ++ LogLine.badLine :: g2.map LogLine.entryLine) =
        g1 ++ g2 ∧
      listSessionCount
          (g1.map LogLine.entryLine ++ LogLine.badLine :: g2.map LogLine.entryLine) =
        g1.length + g2.length) := by
  have hcount_append : ∀ l1 l2 : List LogLine,
      listSessionCount (l1 ++ l2) = listSessionCount l1 + listSessionCount l2 := by
    intro l1
    induction l1 with
    | nil => intro l2; simp [listSessionCount]
    | cons a l1 ih =>
      intro l2
      cases a with
      | entryLine e => rw [List.cons_append, listSessionCount, listSessionCount, ih]; omega
      | badLine => rw [List.cons_append, listSessionCount, listSessionCount, ih]
      | blankLine => rw [List.cons_append, listSessionCount, listSessionCount, ih]
  have hload_good : ∀ g : List LogEntry, loadSession (g.map LogLine.entryLine) = g := by
    intro g
    rw [loadSession, List.filterMap_map]
    exact List.filterMap_eq_map _ ▸ (by simp [Function.comp])
  have hcount_good : ∀ g : List LogEntry,
      listSessionCount (g.map LogLine.entryLine) = g.length := by
    intro g
    induction g with
    | nil => rfl
    | cons e g ih => rw [List.map_cons, listSessionCount, ih, List.length_cons]
  constructor
  · intro l1 l2
    constructor
    · rw [loadSession_append]
      have : loadSession (LogLine.badLine :: l2) = loadSession l2 := rfl
      rw [this]
    · rw [hcount_append]
      have : listSessionCount (LogLine.badLine :: l2) = listSessionCount l2 := rfl
      rw [this]
  · intro g1 g2
    constructor
    · rw [loadSession_append]
      have : loadSession (LogLine.badLine :: g2.map LogLine.entryLine) =
          loadSession (g2.map LogLine.entryLine) := rfl
      rw [this, hload_good, hload_good]
    · rw [hcount_append]
      have : listSessionCount (LogLine.badLine :: g2.map LogLine.entryLine) =
          listSessionCount (g2.map LogLine.entryLine) := rfl
      rw [this, hcount_good, hcount_good]

/-- C9 counterexample: on the path `/a:b` the code's directory name derivation
differs from the claimed "replace path separators and spaces, collapse
repeats, and nothing else": the code also replaces `:` and strips the leading
underscore. -/
theorem C9_counterexample :
    encodePath "/a:b" = "a_b" ∧ encodePathClaimed "/a:b" = "_a:b" ∧
    encodePath "/a:b" ≠ encodePathClaimed "/a:b" := by
  refine ⟨?_, ?_, ?_⟩
  · rfl
  · rfl
  · intro h
    exact absurd h (by decide)

/-- C9 amended: the directory name is derived by replacing `/`, `\`, `:` and
spaces with underscores, stripping leading underscores, and collapsing each
run of underscores (shown against an independent fold-based collapse); and
each started session writes to the file named by its session id with a
`.jsonl` suffix inside that directory. -/
theorem C9_amended (p : String) (st : HistoryState) :
    encodePath p =
      String.mk (collapseFold ((p.data.map encodeReplace).dropWhile (fun c => c = '_'))) ∧
    (startNewSession st).1.sessionFile =
      some (baseDir ++ "/" ++ encodePath st.binaryPath ++ "/" ++
        (startNewSession st).2 ++ ".jsonl") := by
  constructor
  · rw [encodePath, collapseUnderscores_eq_fold]
  · rfl

/-- C6: appending any N entries to a fresh session and reloading yields
exactly N entries in write order whose parent chain starts at null and links
each entry to its predecessor's uuid; and the file only ever grows — the
lines written after any prefix of the operations are a prefix of the lines
written after the whole sequence (no mutation, no deletion). -/
theorem C6_round_trip :
    (∀ (st : HistoryState) (ops : List AppendOp),
      ∃ stF, applyOps (startNewSession st).1 ops = Except.ok stF ∧
        (loadSession stF.fileLines).length = ops.length ∧
        chainOk none (loadSession stF.fileLines) = true) ∧
    (∀ (st : HistoryState) (ops1 ops2 : List AppendOp) (st1 st2 : HistoryState),
      applyOps (startNewSession st).1 ops1 = Except.ok st1 →
      applyOps (startNewSession st).1 (ops1 ++ ops2) = Except.ok st2 →
      st1.fileLines <+: st2.fileLines) := by
  constructor
  · intro st ops
    obtain ⟨stF, heq, hinv, hlen, _⟩ :=
      applyOps_inv ops (startNewSession st).1 (startNewSession_inv st)
    refine ⟨stF, heq, ?_, hinv.2.2.1⟩
    rw [hlen]
    have h0 : (loadSession (startNewSession st).1.fileLines).length = 0 := rfl
    omega
  · intro st ops1 ops2 st1 st2 h1 h2
    obtain ⟨stF, heq, hinv, _, _⟩ :=
      applyOps_inv ops1 (startNewSession st).1 (startNewSession_inv st)
    rw [h1] at heq
    have hst : st1 = stF := by
      cases heq
      rfl
    subst hst
    obtain ⟨stG, heqG, _, _, hpref⟩ := applyOps_inv ops2 st1 hinv
    rw [applyOps_append, h1] at h2
    have h2' : applyOps st1 ops2 = Except.ok st2 := h2
    rw [heqG] at h2'
    have hst2 : stG = st2 := by
      cases h2'
      rfl
    subst hst2
    exact hpref

/-- Witness for C6 on a concrete two-operation session. -/
theorem C6_round_trip_witness :
    (loadSession (okLines (applyOps (startNewSession (mkHistory "/bin/ls")).1
        [AppendOp.user "hi", AppendOp.assistant "yo"]))).length = 2 ∧
    chainOk none (loadSession (okLines (applyOps (startNewSession (mkHistory "/bin/ls")).1
        [AppendOp.user "hi", AppendOp.assistant "yo"]))) = true ∧
    okLines (applyOps (startNewSession (mkHistory "/bin/ls")).1 [AppendOp.user "hi"]) <+:
      okLines (applyOps (startNewSession (mkHistory "/bin/ls")).1
        [AppendOp.user "hi", AppendOp.assistant "yo"]) := by
  obtain ⟨stF, heqF, hlen, hchain⟩ :=
    C6_round_trip.1 (mkHistory "/bin/ls") [AppendOp.user "hi", AppendOp.assistant "yo"]
  obtain ⟨st1, heq1, _, _⟩ := C6_round_trip.1 (mkHistory "/bin/ls") [AppendOp.user "hi"]
  have hpref := C6_round_trip.2 (mkHistory "/bin/ls") [AppendOp.user "hi"]
    [AppendOp.assistant "yo"] st1 stF heq1 heqF
  rw [heqF, heq1]
  exact ⟨hlen, hchain, hpref⟩

/-- The payloads of the parsed entries of a list of file lines. -/
def linePayloads (lines : List LogLine) : List LogPayload :=
  lines.filterMap (fun l =>
    match l with
    | LogLine.entryLine e => some e.payload
    | _ => none)

/-- C10: every script execution the turn loop records is written as one
tool-use entry immediately followed by one tool-result entry sharing the
generated correlation id, and the tool-result's `is_error` field is `false`
for every output — including `"Script error: ..."` outputs — because the loop
never passes the flag. -/
theorem C10_script_log (st : HistoryState) (code output : String)
    (h : st.sessionFile.isSome = true) :
    ∃ st2 ru e1 e2, coreAppendScriptExecution st code output = Except.ok (st2, ru) ∧
      st2.fileLines = st.fileLines ++ [LogLine.entryLine e1, LogLine.entryLine e2] ∧
      e1.payload =
        LogPayload.toolUse ("toolu_" ++ genUuid st.uuidCounter) "IDAPythonExec" code ∧
      e2.payload =
        LogPayload.toolResult ("toolu_" ++ genUuid st.uuidCounter) output false := by
  obtain ⟨st1, u1, e1, heq1, hl1, _, _, hp1, _, hf1, _, _⟩ :=
    @appendEntryPayload_step { st with uuidCounter := st.uuidCounter + 1 } h
      (LogPayload.toolUse ("toolu_" ++ genUuid st.uuidCounter) "IDAPythonExec" code)
  obtain ⟨st2, u2, e2, heq2, hl2, _, _, hp2, _, _, _, _⟩ :=
    @appendEntryPayload_step st1 (by rw [hf1]; exact h)
      (LogPayload.toolResult ("toolu_" ++ genUuid st.uuidCounter) output false)
  refine ⟨st2, u2, e1, e2, ?_, ?_, hp1, hp2⟩
  · show appendScriptExecution st code output false = Except.ok (st2, u2)
    simp only [appendScriptExecution, appendToolUse, heq1, appendToolResult, heq2]
  · rw [hl2, hl1, List.append_assoc]
    rfl

/-- Witness for C10: a fresh session, a concrete code string, and an executor
failure string as output still get logged with `is_error = false`. -/
theorem C10_script_log_witness :
    linePayloads (okLines2 (coreAppendScriptExecution
        (startNewSession (mkHistory "/bin/prog")).1 "print(1)" "Script error: boom")) =
      [LogPayload.toolUse "toolu_uuid-1" "IDAPythonExec" "print(1)",
       LogPayload.toolResult "toolu_uuid-1" "Script error: boom" false] := by
  obtain ⟨st2, ru, e1, e2, heq, hl, hp1, hp2⟩ :=
    C10_script_log (startNewSession (mkHistory "/bin/prog")).1 "print(1)" "Script error: boom"
      rfl
  rw [heq]
  show linePayloads st2.fileLines = _
  rw [hl]
  show linePayloads ([] ++ [LogLine.entryLine e1, LogLine.entryLine e2]) = _
  rw [List.nil_append]
  show e1.payload :: e2.payload :: [] = _
  rw [hp1, hp2]
  decide

/-- C1 counterexample: with an agent whose first response carries one fragment
and an executor returning `"func_0\n"`, the next turn's input is not that
output verbatim — the loop prepends the `"Script output:"` header
(ida_chat_core.py:414). -/
theorem C1_counterexample :
    (processMessage true
        (fun t => if t = 1 then Except.ok "<idascript>print(db.functions[0])</idascript>"
          else Except.ok "done")
        (fun _ => "func_0\n") (fun _ => false) 20 "list the first function" false).trace.requests =
      ["list the first function", "Script output:\n\nfunc_0\n"] ∧
    "Script output:\n\nfunc_0\n" ≠ "func_0\n" := by
  constructor
  · decide
  · decide

/-- C1 amended: whenever a turn extracted and ran at least one fragment, the
next turn's input is `"Script output:"` followed by a blank line and then: the
single output verbatim when exactly one fragment ran (the no-output sentinel
branch is unreachable then, because one output string — possibly empty — is
recorded per fragment); or the `"Script N output:"`-labelled outputs joined
with blank-line separation when several ran.  The loop sends exactly that
string as the next request. -/
theorem C1_feedback :
    (∀ s o : String, nextInput [s] [o] = "Script output:\n\n" ++ o) ∧
    (∀ (scripts outputs : List String), 2 ≤ scripts.length → outputs ≠ [] →
      nextInput scripts outputs = "Script output:\n\n" ++ String.intercalate "\n\n"
        (outputs.enum.map (fun io =>
          "Script " ++ Nat.repr (io.1 + 1) ++ " output:\n" ++ io.2))) ∧
    (∀ (agent : Nat → Except String String) (ex : String → String) (cancel : Nat → Bool)
        (maxT fuel turn : Nat) (input r : String),
      cancel turn = false → agent (turn + 1) = Except.ok r → extractScripts r ≠ [] →
      (loopAux agent ex cancel maxT (fuel + 1) turn input).requests =
        input :: (loopAux agent ex cancel maxT fuel (turn + 1)
          (nextInput (extractScripts r)
            ((extractScripts r).map (fun sc => ex (pyStrip sc))))).requests) := by
  refine ⟨?_, ?_, ?_⟩
  · intro s o
    rfl
  · intro scripts outputs hlen hne
    have hie : outputs.isEmpty = false := by
      cases outputs with
      | nil => exact absurd rfl hne
      | cons a l => rfl
    rw [nextInput, hie, if_neg (by simp), labelOutputs]
    have hlt : 1 < scripts.length := hlen
    simp only [if_pos hlt]
  · intro agent ex cancel maxT fuel turn input r hc ha hs
    have hs' : (processSingleResponse ex r).scripts ≠ [] := by
      rw [processSingleResponse_scripts]
      exact hs
    rw [loopAux_step hc ha hs']
    simp only [processSingleResponse_scripts, processSingleResponse_outputs]

/-- Witness for C1 on the end-to-end scenario agent. -/
theorem C1_feedback_witness :
    (loopAux
        (fun t => if t = 1 then Except.ok "<idascript>print(db.functions[0])</idascript>"
          else Except.ok "done")
        (fun _ => "func_0\n") (fun _ => false) 20 (19 + 1) 0 "list the first function").requests =
      ["list the first function", "Script output:\n\nfunc_0\n"] := by
  have h := C1_feedback.2.2
    (fun t => if t = 1 then Except.ok "<idascript>print(db.functions[0])</idascript>"
      else Except.ok "done")
    (fun _ => "func_0\n") (fun _ => false) 20 19 0 "list the first function"
    "<idascript>print(db.functions[0])</idascript>" rfl rfl (by decide)
  rw [h]
  decide

/-- C3 counterexample: a transport error (the agent connection failing on
`query`) escapes `process_message` as an exception to its caller — it is not
captured into the execution-output stream, and it is neither the
not-connected precondition violation nor a cancellation. -/
theorem C3_counterexample :
    (processMessage true (fun _ => Except.error "Connection lost") (fun _ => "")
        (fun _ => false) 5 "hi" false).outcome = Outcome.raised "Connection lost" ∧
    "Connection lost" ≠ notConnectedMsg := by
  constructor
  · decide
  · decide

/-- C3 amended: executor failures are data — the `"Script error: ..."` string
is recorded and fed back to the agent in the next request — and a run whose
transport never raises always returns normally; but a transport error raised
by `query`/`receive_response` propagates to `process_message`'s caller (there
is no try/except in the loop).  Calling `process_message` without ever having
connected raises immediately, before any request, sink notification, or
history write. -/
theorem C3_failure_semantics :
    (∀ (agent : Nat → Except String String) (ex : String → String) (cancel : Nat → Bool)
        (maxT : Nat) (u : String) (b : Bool),
      processMessage false agent ex cancel maxT u b =
        ⟨⟨[], [], [], [], 0⟩, Outcome.raised notConnectedMsg⟩) ∧
    (∀ (agent : Nat → Except String String) (ex : String → String) (cancel : Nat → Bool)
        (maxT : Nat) (u : String) (b : Bool),
      (∀ t, ∃ r, agent t = Except.ok r) →
      ∃ v, (processMessage true agent ex cancel maxT u b).outcome = Outcome.returned v) ∧
    (∀ e sfrag : String, nextInput [sfrag] ["Script error: " ++ e] =
      "Script output:\n\n" ++ ("Script error: " ++ e)) ∧
    (∀ (agent : Nat → Except String String) (ex : String → String) (cancel : Nat → Bool)
        (maxT : Nat) (u : String) (b : Bool) (e : String),
      1 ≤ maxT → cancel 0 = false → agent 1 = Except.error e →
      (processMessage true agent ex cancel maxT u b).outcome = Outcome.raised e) := by
  refine ⟨?_, ?_, ?_, ?_⟩
  · intro agent ex cancel maxT u b
    rfl
  · intro agent ex cancel maxT u b hok
    refine ⟨String.intercalate "\n" (loopAux agent ex cancel maxT maxT 0 u).outputs, ?_⟩
    rw [processMessage_ok (loopAux_exn_none hok maxT 0 u)]
  · intro e sfrag
    rfl
  · intro agent ex cancel maxT u b e hmax hc ha
    obtain ⟨g, hg⟩ : ∃ g, maxT = g + 1 := ⟨maxT - 1, by omega⟩
    have hexn : (loopAux agent ex cancel maxT maxT 0 u).exn = some e := by
      rw [hg, loopAux_err hc ha]
    rw [processMessage_raised hexn]

/-- Witness for C3 at concrete inputs for each amended conjunct. -/
theorem C3_failure_semantics_witness :
    processMessage false (fun _ => Except.ok "x") (fun _ => "") (fun _ => false) 3 "hello" true =
      ⟨⟨[], [], [], [], 0⟩, Outcome.raised notConnectedMsg⟩ ∧
    nextInput ["print(1)"] ["Script error: boom"] = "Script output:\n\nScript error: boom" ∧
    (processMessage true (fun _ => Except.error "socket closed") (fun _ => "")
        (fun _ => false) 5 "hi" false).outcome = Outcome.raised "socket closed" := by
  refine ⟨C3_failure_semantics.1 (fun _ => Except.ok "x") (fun _ => "") (fun _ => false)
      3 "hello" true,
    (C3_failure_semantics.2.2.1 "boom" "print(1)").trans (by decide),
    C3_failure_semantics.2.2.2 (fun _ => Except.error "socket closed") (fun _ => "")
      (fun _ => false) 5 "hi" false "socket closed" (by decide) rfl rfl⟩

/-- C4 counterexample: with `max_turns = 1` and an agent whose first response
contains no fragment, the loop exits via the done path (zero executions), yet
the sink still receives the max-turns error, because the post-loop check
`turn >= max_turns` (ida_chat_core.py:420) also fires on a done exit at the
final turn. -/
theorem C4_counterexample :
    extractScripts "done" = [] ∧
    (processMessage true (fun _ => Except.ok "done") (fun _ => "") (fun _ => false) 1 "go"
        false).trace.outputs = [] ∧
    Event.error (maxTurnsMsg 1) ∈
      (processMessage true (fun _ => Except.ok "done") (fun _ => "") (fun _ => false) 1 "go"
        false).trace.events := by
  refine ⟨by decide, by decide, by decide⟩

/-- C4 amended: with `max_turns = N ≥ 1` and an agent whose every response
contains exactly one fragment with non-empty output, `process_message`
performs exactly N script executions and notifies the sink of the max-turns
error; and on any run that returns normally, the max-turns notification is
emitted exactly when the loop exits with `turn ≥ max_turns` — which includes
a done-path exit on the final turn, while a done exit on any earlier turn
never receives it. -/
theorem C4_max_turns :
    (∀ (N : Nat) (agent : Nat → Except String String) (ex : String → String)
        (cancel : Nat → Bool) (u : String) (b : Bool),
      1 ≤ N → (∀ k, cancel k = false) →
      (∀ t, 1 ≤ t → t ≤ N → ∃ r s, agent t = Except.ok r ∧ extractScripts r = [s] ∧
        ex (pyStrip s) ≠ "") →
      (processMessage true agent ex cancel N u b).trace.outputs.length = N ∧
        Event.error (maxTurnsMsg N) ∈ (processMessage true agent ex cancel N u b).trace.events) ∧
    (∀ (agent : Nat → Except String String) (ex : String → String) (cancel : Nat → Bool)
        (maxT : Nat) (u : String) (b : Bool) (v : String),
      (processMessage true agent ex cancel maxT u b).outcome = Outcome.returned v →
      (Event.error (maxTurnsMsg maxT) ∈ (processMessage true agent ex cancel maxT u b).trace.events ↔
        maxT ≤ (processMessage true agent ex cancel maxT u b).trace.turns)) := by
  constructor
  · intro N agent ex cancel u b hN hcan hag
    obtain ⟨h1, h2, h3, h4⟩ := loopAux_single_script_run N 0 u
      (fun k _ _ => hcan k)
      (fun t ht1 ht2 => by
        obtain ⟨r, sfrag, hok, hx, _⟩ := hag t ht1 (by omega)
        exact ⟨r, sfrag, hok, hx⟩)
    rw [processMessage_ok h2]
    constructor
    · exact h3
    · show Event.error (maxTurnsMsg N) ∈
        (if N ≤ (loopAux agent ex cancel N N 0 u).turnsEnd then _ ++ [Event.error (maxTurnsMsg N)]
          else (loopAux agent ex cancel N N 0 u).events)
      rw [h1, if_pos (by omega)]
      exact List.mem_append_right _ (List.mem_singleton.mpr rfl)
  · intro agent ex cancel maxT u b v hret
    cases hexn : (loopAux agent ex cancel maxT maxT 0 u).exn with
    | some e =>
      rw [processMessage_raised hexn] at hret
      exact absurd hret (by simp)
    | none =>
      rw [processMessage_ok hexn]
      show Event.error (maxTurnsMsg maxT) ∈
          (if maxT ≤ (loopAux agent ex cancel maxT maxT 0 u).turnsEnd then
            (loopAux agent ex cancel maxT maxT 0 u).events ++ [Event.error (maxTurnsMsg maxT)]
          else (loopAux agent ex cancel maxT maxT 0 u).events) ↔
        maxT ≤ (loopAux agent ex cancel maxT maxT 0 u).turnsEnd
      constructor
      · intro hmem
        by_cases hle : maxT ≤ (loopAux agent ex cancel maxT maxT 0 u).turnsEnd
        · exact hle
        · rw [if_neg hle] at hmem
          exact absurd (loopAux_error_events maxT 0 u _ hmem) (maxTurnsMsg_ne_cancelled maxT)
      · intro hle
        rw [if_pos hle]
        exact List.mem_append_right _ (List.mem_singleton.mpr rfl)

/-- Witness for C4 with `max_turns = 2` and a constant one-fragment agent. -/
theorem C4_max_turns_witness :
    (processMessage true (fun _ => Except.ok "<idascript>print(1)</idascript>")
        (fun _ => "out") (fun _ => false) 2 "go" false).trace.outputs.length = 2 ∧
    Event.error (maxTurnsMsg 2) ∈
      (processMessage true (fun _ => Except.ok "<idascript>print(1)</idascript>")
        (fun _ => "out") (fun _ => false) 2 "go" false).trace.events :=
  C4_max_turns.1 2 (fun _ => Except.ok "<idascript>print(1)</idascript>") (fun _ => "out")
    (fun _ => false) "go" false (by decide) (fun k => rfl)
    (fun t h1 h2 => ⟨"<idascript>print(1)</idascript>", "print(1)", rfl, by decide, by decide⟩)

/-- C7: if the cancellation flag is first seen set at the boundary after turn
k completed (and the agent kept returning fragments up to there), the loop
sends no further request, its final sink event is the cancellation notice, it
returns normally with k completed turns, and no turn k+1 starts.  The flag is
read only at these boundaries (the loop model consults it nowhere else), and
the result is independent of the flag's value on entry — `process_message`
clears it before the loop. -/
theorem C7_cancellation :
    ∀ (agent : Nat → Except String String) (ex : String → String) (cancel : Nat → Bool)
      (maxT k : Nat) (u : String) (b1 b2 : Bool),
      k < maxT → cancel k = true → (∀ j, j < k → cancel j = false) →
      (∀ t, 1 ≤ t → t ≤ k → ∃ r s, agent t = Except.ok r ∧ extractScripts r = [s]) →
      (processMessage true agent ex cancel maxT u b1).trace.requests.length = k ∧
      (processMessage true agent ex cancel maxT u b1).trace.events.getLast? =
        some (Event.error "Operation cancelled") ∧
      (∃ v, (processMessage true agent ex cancel maxT u b1).outcome = Outcome.returned v) ∧
      (processMessage true agent ex cancel maxT u b1).trace.turns = k ∧
      (∀ t m, k < t →
        Event.turnStart t m ∉ (processMessage true agent ex cancel maxT u b1).trace.events) ∧
      processMessage true agent ex cancel maxT u b1 =
        processMessage true agent ex cancel maxT u b2 := by
  intro agent ex cancel maxT k u b1 b2 hkm hck hfalse hag
  obtain ⟨h1, h2, h3, h4⟩ := loopAux_cancel_run hck maxT 0 u (by omega) (by omega)
    (fun j _ hj => hfalse j hj)
    (fun t ht1 ht2 => hag t ht1 ht2)
  rw [processMessage_ok h2]
  have hnotmax : ¬ maxT ≤ (loopAux agent ex cancel maxT maxT 0 u).turnsEnd := by
    rw [h1]; omega
  refine ⟨by simpa using h3, ?_, ⟨_, rfl⟩, h1, ?_,
    (@processMessage_ok agent ex cancel maxT u b2 h2).symm⟩
  · show (if maxT ≤ (loopAux agent ex cancel maxT maxT 0 u).turnsEnd then
        (loopAux agent ex cancel maxT maxT 0 u).events ++ [Event.error (maxTurnsMsg maxT)]
      else (loopAux agent ex cancel maxT maxT 0 u).events).getLast? =
      some (Event.error "Operation cancelled")
    rw [if_neg hnotmax]
    exact h4
  · intro t m ht hmem
    show False
    rw [if_neg hnotmax] at hmem
    have := loopAux_turnStart_bound maxT 0 u t m hmem
    rw [h1] at this
    omega

/-- Witness for C7: cancellation requested after turn 1 of an always-fragment
agent with `max_turns = 3`. -/
theorem C7_cancellation_witness :
    (processMessage true (fun _ => Except.ok "<idascript>x</idascript>") (fun _ => "o")
        (fun j => j != 0) 3 "go" true).trace.requests.length = 1 ∧
    (processMessage true (fun _ => Except.ok "<idascript>x</idascript>") (fun _ => "o")
        (fun j => j != 0) 3 "go" true).trace.events.getLast? =
      some (Event.error "Operation cancelled") ∧
    (processMessage true (fun _ => Except.ok "<idascript>x</idascript>") (fun _ => "o")
        (fun j => j != 0) 3 "go" true).trace.turns = 1 := by
  have h := C7_cancellation (fun _ => Except.ok "<idascript>x</idascript>") (fun _ => "o")
    (fun j => j != 0) 3 1 "go" true false (by decide) rfl
    (fun j hj => by
      have hj0 : j = 0 := by omega
      subst hj0
      rfl)
    (fun t h1 h2 => ⟨"<idascript>x</idascript>", "x", rfl, by decide⟩)
  exact ⟨h.1, h.2.1, h.2.2.2.1⟩
